import Mathlib

/-
  Verification of the placeholder-substitution engine of `src/agents/pptx_generator.py`
  (class `PPTXGenerator`).

  The Python code is shallowly embedded as follows.

  * A Python string is a `List Char` (`Str`).
  * The compiled regex `re.compile(r'\x7b\x7b(.*?)\x7d\x7d')` (two literal opening
    braces, a lazy possibly-empty run of non-newline characters, two literal closing
    braces) is embedded by `scan` / `findall`: at each position a match starts at a
    pair of opening braces and extends to the first pair of closing braces with no
    newline in between; `findall` returns the captured group (the name between the
    brace pairs) of each match, left to right, non-overlapping.
  * Python `str.replace(old, new)` (replace every non-overlapping occurrence, left to
    right) is embedded by `replaceAll`.
  * A text frame is the list of its paragraph texts (`Frame`); `text_frame.text` reads
    the paragraphs joined by a newline (`frameText`), and assigning `text_frame.text`
    replaces the paragraphs by the assigned string split at newlines (`splitNl`),
    which is the python-pptx behaviour.  A table is a grid of cells, each cell a list
    of paragraph texts; `cell.text` is `cellText`.
  * A shape has an optional text frame (`hasattr(shape, "text_frame")`) and an
    optional table (`shape.has_table`); a document is the list of slides, each a list
    of shapes.
  * The engine object holds `presentation : Option Document` and
    `template_path : Option String`.  Each public method wraps a body that can fail
    (embedded with `Except PPTXError`) in a catch-all handler returning a sentinel,
    which is the `try ... except Exception: return <sentinel>` structure of every
    public method of the class.  The filesystem consulted by `load_template`
    (`os.path.exists`, the `Presentation(path)` parser) is abstracted as a function
    from paths to `FileState`; saving can fail through the `diskOk` flag (`IOError`).
    `_count_placeholders`, called by `load_template` only for a log message, cannot
    affect any result and is not modelled.

  All definitions are executable; recursions that skip ahead in the string
  (`scan`, `replaceAll`) are implemented with a fuel argument equal to the string
  length, with congruence lemmas recovering the natural recurrences.
-/

namespace PPTX

/-- Characters of a Python string. -/
abbrev Str := List Char

/-- A substitution map: an association list of (placeholder name, stringified value).
Python dict keys are unique; lookup takes the first binding. -/
abbrev Data := List (Str × Str)

/-- Dictionary membership plus indexing: `data[match]` when `match in data`. -/
def lookupD : Data → Str → Option Str
  | [], _ => none
  | (k, v) :: rest, n => if k = n then some v else lookupD rest n

/-- Scan the characters after an opening `\x7b\x7b` for the first closing pair
`\x7d\x7d`, failing on a newline (the regex dot does not match a newline).
Returns the captured name and the remainder of the string after the match. -/
def takeName : Str → Option (Str × Str)
  | [] => none
  | c :: rest =>
    if c = '\n' then none
    else if c = '}' ∧ rest.head? = some '}' then some ([], rest.tail)
    else (takeName rest).map fun nr => (c :: nr.1, nr.2)

/-- A segment of scanned text: a literal character or a placeholder token with the
given name. -/
inductive Seg where
  | lit : Char → Seg
  | ph : Str → Seg
deriving DecidableEq, Repr

/-- Fuel-indexed scanner; `scan` instantiates the fuel with the string length. -/
def scanF : Nat → Str → List Seg
  | _, [] => []
  | Nat.succ fuel, c :: rest =>
    if c = '{' then
      match rest with
      | c2 :: rest2 =>
        if c2 = '{' then
          match takeName rest2 with
          | some nr => Seg.ph nr.1 :: scanF fuel nr.2
          | none => Seg.lit '{' :: scanF fuel rest
        else Seg.lit c :: scanF fuel rest
      | [] => [Seg.lit c]
    else Seg.lit c :: scanF fuel rest
  | 0, _ :: _ => []

/-- The regex matcher: split a string into literal characters and placeholder
tokens, left to right, each token the shortest match from its opening braces. -/
def scan (s : Str) : List Seg := scanF s.length s

/-- Names of the placeholder tokens of a segment list, in order, duplicates kept. -/
def phNames : List Seg → List Str
  | [] => []
  | Seg.ph n :: rest => n :: phNames rest
  | Seg.lit _ :: rest => phNames rest

/-- `self.placeholder_pattern.findall(text)`: the captured group of every match,
in order, duplicates included. -/
def findall (s : Str) : List Str := phNames (scan s)

/-- Prefix test on character lists (an anchored occurrence test). -/
def isPref : Str → Str → Bool
  | [], _ => true
  | _ :: _, [] => false
  | a :: as, b :: bs => (a == b) && isPref as bs

/-- Fuel-indexed version of Python `str.replace`. -/
def replaceAllF (pat rep : Str) : Nat → Str → Str
  | _, [] => []
  | Nat.succ fuel, c :: rest =>
    if pat ≠ [] ∧ isPref pat (c :: rest) = true then
      rep ++ replaceAllF pat rep fuel (List.drop pat.length (c :: rest))
    else c :: replaceAllF pat rep fuel rest
  | 0, s => s

/-- Python `s.replace(pat, rep)`: replace every non-overlapping occurrence of
`pat` in `s` by `rep`, scanning left to right. -/
def replaceAll (pat rep s : Str) : Str := replaceAllF pat rep s.length s

/-- The f-string pattern built for a matched name: two opening braces, the name,
two closing braces. -/
def phTok (n : Str) : Str := '{' :: '{' :: (n ++ ['}', '}'])

/-- One substitution loop of the source: iterate over `findall text`; for every
match that is a key of the map, replace all occurrences of its token in the
accumulated text and increment the counter (whether or not the text changed).
Returns the final text and the counter. -/
def substText (data : Data) (text : Str) : Str × Nat :=
  (findall text).foldl
    (fun acc n =>
      match lookupD data n with
      | some v => (replaceAll (phTok n) v acc.1, acc.2 + 1)
      | none => acc)
    (text, 0)

/-- A text frame: the list of its paragraph texts. -/
abbrev Frame := List Str

/-- `text_frame.text`: the paragraph texts joined by a newline. -/
def interNl : List Str → Str
  | [] => []
  | [p] => p
  | p :: q :: rest => p ++ '\n' :: interNl (q :: rest)

/-- The text of a frame (paragraphs joined by newline). -/
def frameText (tf : Frame) : Str := interNl tf

/-- Assigning `text_frame.text`: the assigned string split at newlines, one
paragraph per piece. -/
def splitNl : Str → List Str
  | [] => [[]]
  | c :: rest =>
    if c = '\n' then [] :: splitNl rest
    else
      match splitNl rest with
      | l :: ls => (c :: l) :: ls
      | [] => [[c]]

/-- `PPTXGenerator._replace_in_text_frame`: a whole-frame pass over the joined
text (written back through the `text_frame.text` setter when it changed),
followed by a per-paragraph pass, counts added. -/
def replaceInTextFrame (data : Data) (tf : Frame) : Frame × Nat :=
  if frameText tf = [] then (tf, 0)
  else
    let original := frameText tf
    let r1 := substText data original
    let tf1 := if r1.1 = original then tf else splitNl r1.1
    (tf1.map fun p => (substText data p).1,
     r1.2 + (tf1.map fun p => (substText data p).2).sum)

/-- A table: rows of cells, each cell a list of paragraph texts. -/
abbrev Table := List (List Frame)

/-- `cell.text`: the cell's paragraph texts joined by a newline. -/
def cellText (cell : Frame) : Str := interNl cell

/-- The per-cell part of `PPTXGenerator._replace_in_table`: every paragraph of the
cell gets one substitution loop, written back when changed. -/
def replaceInCell (data : Data) (cell : Frame) : Frame × Nat :=
  (cell.map fun p => (substText data p).1,
   (cell.map fun p => (substText data p).2).sum)

/-- `PPTXGenerator._replace_in_table`: iterate rows and cells, adding counts. -/
def replaceInTable (data : Data) (t : Table) : Table × Nat :=
  (t.map fun row => row.map fun cell => (replaceInCell data cell).1,
   (t.map fun row => (row.map fun cell => (replaceInCell data cell).2).sum).sum)

/-- A shape: an optional text frame and an optional table. -/
structure Shape where
  text_frame : Option Frame
  table : Option Table
deriving DecidableEq, Repr

/-- A slide: its shapes in order. -/
abbrev Slide := List Shape

/-- A document: its slides in order. -/
abbrev Document := List Slide

/-- The per-shape step of `replace_placeholders`: text frame first, then table. -/
def shapeRepl (data : Data) (sh : Shape) : Shape × Nat :=
  let rf := match sh.text_frame with
    | some tf => let r := replaceInTextFrame data tf; (some r.1, r.2)
    | none => (none, 0)
  let rt := match sh.table with
    | some t => let r := replaceInTable data t; (some r.1, r.2)
    | none => (none, 0)
  (⟨rf.1, rt.1⟩, rf.2 + rt.2)

/-- The document traversal of `replace_placeholders`: all shapes of all slides,
counts accumulated. -/
def docRepl (data : Data) (d : Document) : Document × Nat :=
  (d.map fun sl => sl.map fun sh => (shapeRepl data sh).1,
   (d.map fun sl => (sl.map fun sh => (shapeRepl data sh).2).sum).sum)

/-- Error taxonomy of the engine bodies. -/
inductive PPTXError where
  | noDocumentLoaded
  | fileNotFound
  | parseError
  | ioError
deriving DecidableEq, Repr

/-- The engine state: `self.presentation` and `self.template_path`. -/
structure Engine where
  presentation : Option Document
  template_path : Option String
deriving DecidableEq, Repr

/-- Body of `replace_placeholders` before the catch-all handler: raises
`ValueError("Nenhuma apresentação carregada")` when no presentation is loaded,
otherwise performs the traversal. -/
def replaceInner (e : Engine) (data : Data) : Except PPTXError (Document × Nat) :=
  match e.presentation with
  | none => Except.error PPTXError.noDocumentLoaded
  | some d => Except.ok (docRepl data d)

/-- `PPTXGenerator.replace_placeholders`: the body wrapped in
`try ... except Exception: return 0`; on success the mutated document replaces
the loaded one and the count is returned. -/
def replace_placeholders (e : Engine) (data : Data) : Engine × Nat :=
  match replaceInner e data with
  | Except.error _ => (e, 0)
  | Except.ok (d, c) => (⟨some d, e.template_path⟩, c)

/-- What the filesystem holds at a path: nothing, a file `Presentation` cannot
parse, or a parseable presentation. -/
inductive FileState where
  | absent
  | invalid
  | valid : Document → FileState

/-- Abstract filesystem consulted by `load_template`. -/
abbrev FileSys := String → FileState

/-- Body of `load_template` before the catch-all handler: the `os.path.exists`
check raises `FileNotFoundError`; `Presentation(path)` raises a parse error on a
malformed file; both happen before `self.presentation` is assigned. -/
def loadInner (fs : FileSys) (path : String) : Except PPTXError Document :=
  match fs path with
  | FileState.absent => Except.error PPTXError.fileNotFound
  | FileState.invalid => Except.error PPTXError.parseError
  | FileState.valid d => Except.ok d

/-- `PPTXGenerator.load_template`: the body wrapped in
`try ... except Exception: return False`; on success both fields are assigned
and `True` is returned. -/
def load_template (fs : FileSys) (path : String) (e : Engine) : Engine × Bool :=
  match loadInner fs path with
  | Except.error _ => (e, false)
  | Except.ok d => (⟨some d, some path⟩, true)

/-- Body of `save_presentation` before the catch-all handler: raises when no
presentation is loaded; `presentation.save` can raise an `IOError`, abstracted
by the `diskOk` flag. -/
def saveInner (e : Engine) (diskOk : Bool) : Except PPTXError Unit :=
  match e.presentation with
  | none => Except.error PPTXError.noDocumentLoaded
  | some _ => if diskOk then Except.ok () else Except.error PPTXError.ioError

/-- `PPTXGenerator.save_presentation`: the body wrapped in
`try ... except Exception: return False`. -/
def save_presentation (e : Engine) (diskOk : Bool) : Bool :=
  match saveInner e diskOk with
  | Except.error _ => false
  | Except.ok _ => true

/-- `PPTXGenerator._extract_placeholders`: add every match of the pattern in the
text to the accumulated set (modelled as an insertion-ordered duplicate-free
list; the final `sorted` makes the set order irrelevant). -/
def extractPlaceholders (text : Str) (acc : List Str) : List Str :=
  (findall text).foldl (fun a n => if n ∈ a then a else a ++ [n]) acc

/-- The per-shape step of `get_placeholders_list`: the frame's joined text, then
every cell text of a table. -/
def shapeExtract (acc : List Str) (sh : Shape) : List Str :=
  let acc1 := match sh.text_frame with
    | some tf => extractPlaceholders (frameText tf) acc
    | none => acc
  match sh.table with
  | some t => t.foldl (fun a row => row.foldl (fun a2 c => extractPlaceholders (cellText c) a2) a) acc1
  | none => acc1

/-- The document traversal of `get_placeholders_list` collecting the set of
distinct names. -/
def collectDoc (d : Document) : List Str :=
  d.foldl (fun acc sl => sl.foldl shapeExtract acc) []

/-- Python string comparison: lexicographic by code point. -/
def strLe : Str → Str → Bool
  | [], _ => true
  | _ :: _, [] => false
  | a :: as, b :: bs => if a < b then true else if b < a then false else strLe as bs

/-- Propositional form of `strLe`, used by the sort. -/
def strLeP (a b : Str) : Prop := strLe a b = true

instance : DecidableRel strLeP := fun a b => inferInstanceAs (Decidable (strLe a b = true))

/-- Body of `get_placeholders_list` before the catch-all handler. -/
def gplInner (e : Engine) : Except PPTXError (List Str) :=
  match e.presentation with
  | none => Except.error PPTXError.noDocumentLoaded
  | some d => Except.ok (List.insertionSort strLeP (collectDoc d))

/-- `PPTXGenerator.get_placeholders_list`: the body wrapped in
`try ... except Exception: return []`; `sorted(list(placeholders))`. -/
def get_placeholders_list (e : Engine) : List Str :=
  match gplInner e with
  | Except.error _ => []
  | Except.ok l => l

/-! ### Segments, rendering, and the well-formedness predicates

A text is well formed when it is the rendering of a segment list whose literal
characters are not opening braces and whose token names contain no brace and no
newline.  Such texts are exactly those whose placeholder tokens do not overlap,
the situation every scenario of the specification lives in. -/

/-- Render a segment list back to the text it was scanned from. -/
def renderSegs : List Seg → Str
  | [] => []
  | Seg.lit c :: rest => c :: renderSegs rest
  | Seg.ph n :: rest => '{' :: '{' :: (n ++ '}' :: '}' :: renderSegs rest)

/-- A token name with no brace and no newline character. -/
def CleanName (n : Str) : Prop := ∀ c ∈ n, c ≠ '{' ∧ c ≠ '}' ∧ c ≠ '\n'

/-- A substitution value containing no opening brace (so it can never create or
take part in a new placeholder token). -/
def PlainStr (v : Str) : Prop := ∀ c ∈ v, c ≠ '{'

/-- Every stringified value of the map is plain. -/
def PlainVals (data : Data) : Prop := ∀ p ∈ data, PlainStr p.2

/-- A well-formed segment: a literal that is not an opening brace, or a token
with a clean name. -/
def GoodSeg : Seg → Prop
  | Seg.lit c => c ≠ '{'
  | Seg.ph n => CleanName n

instance : DecidablePred CleanName := fun n =>
  inferInstanceAs (Decidable (∀ c ∈ n, c ≠ '{' ∧ c ≠ '}' ∧ c ≠ '\n'))

instance : DecidablePred PlainStr := fun v =>
  inferInstanceAs (Decidable (∀ c ∈ v, c ≠ '{'))

instance : DecidablePred PlainVals := fun data =>
  inferInstanceAs (Decidable (∀ p ∈ data, PlainStr p.2))

instance : DecidablePred GoodSeg := fun s =>
  match s with
  | Seg.lit c => inferInstanceAs (Decidable (c ≠ '{'))
  | Seg.ph n => inferInstanceAs (Decidable (CleanName n))

/-- Replace every token of name `n` in a segment list by the value rendered as
literal characters. -/
def substOne (n v : Str) : List Seg → List Seg
  | [] => []
  | Seg.ph m :: rest => (if m = n then v.map Seg.lit else [Seg.ph m]) ++ substOne n v rest
  | Seg.lit c :: rest => Seg.lit c :: substOne n v rest

/-- Process the names of one `findall` result in order, substituting each name
that is a key (this is the sequential effect of the source loop, at segment
level). -/
def applyList (data : Data) : List Str → List Seg → List Seg
  | [], ss => ss
  | n :: ns, ss =>
    match lookupD data n with
    | some v => applyList data ns (substOne n v ss)
    | none => applyList data ns ss

/-- Simultaneous substitution: every token whose name is a key becomes its
value, other segments are untouched. -/
def multiSubst (data : Data) : List Seg → List Seg
  | [] => []
  | Seg.ph m :: rest =>
    (match lookupD data m with
     | some v => v.map Seg.lit
     | none => [Seg.ph m]) ++ multiSubst data rest
  | Seg.lit c :: rest => Seg.lit c :: multiSubst data rest

/-- Simultaneous substitution restricted to names in `ns`. -/
def multiSubstOn (data : Data) (ns : List Str) : List Seg → List Seg
  | [] => []
  | Seg.ph m :: rest =>
    (if m ∈ ns then
       (match lookupD data m with
        | some v => v.map Seg.lit
        | none => [Seg.ph m])
     else [Seg.ph m]) ++ multiSubstOn data ns rest
  | Seg.lit c :: rest => Seg.lit c :: multiSubstOn data ns rest

/-- The number of matched names in a list. -/
def matchedCount (data : Data) (ns : List Str) : Nat :=
  ns.countP fun n => (lookupD data n).isSome

/-! ### Joining paragraphs with newlines, at segment level -/

/-- Segment-level counterpart of `interNl`: paragraphs joined by a newline
literal. -/
def interSegNl : List (List Seg) → List Seg
  | [] => []
  | [p] => p
  | p :: q :: rest => p ++ Seg.lit '\n' :: interSegNl (q :: rest)

/-! ### The rewritten text differs exactly when a token was matched -/

/-- Number of opening braces in a text. -/
def braceCount (s : Str) : Nat := s.countP fun c => c == '{'

/-! ### Splitting at newlines, at segment level -/

/-- Segment-level counterpart of `splitNl`: split a segment list at its newline
literals (token names never contain a newline). -/
def splitSegsNl : List Seg → List (List Seg)
  | [] => [[]]
  | Seg.lit c :: rest =>
    if c = '\n' then [] :: splitSegsNl rest
    else
      match splitSegsNl rest with
      | l :: ls => (Seg.lit c :: l) :: ls
      | [] => [[Seg.lit c]]
  | Seg.ph n :: rest =>
    match splitSegsNl rest with
    | l :: ls => (Seg.ph n :: l) :: ls
    | [] => [[Seg.ph n]]

/-! ### The text-frame theorem -/

/-- A text frame given at segment level: one segment list per paragraph. -/
abbrev SegFrame := List (List Seg)

/-- Well-formedness of a segment frame. -/
def GoodFrame (sps : SegFrame) : Prop := ∀ p ∈ sps, ∀ s ∈ p, GoodSeg s

instance : DecidablePred GoodFrame := fun sps =>
  inferInstanceAs (Decidable (∀ p ∈ sps, ∀ s ∈ p, GoodSeg s))

/-- The result of one `_replace_in_text_frame` call on a well-formed frame: if
no token is matched the frame is untouched, otherwise every matched token of
the joined text is simultaneously replaced by its value and the text is
re-split at newlines by the `text_frame.text` setter. -/
def frameExpect (data : Data) (sps : SegFrame) : Frame :=
  if matchedCount data (phNames (interSegNl sps)) = 0 then sps.map renderSegs
  else splitNl (renderSegs (multiSubst data (interSegNl sps)))

/-- Matched-occurrence count of one frame (both passes; the second pass never
matches anything on a well-formed frame). -/
def frameCount (data : Data) (sps : SegFrame) : Nat :=
  matchedCount data (phNames (interSegNl sps))

/-- Matched-occurrence count of one table cell (its paragraphs are processed
independently). -/
def cellCount (data : Data) (cell : SegFrame) : Nat :=
  (cell.map fun ps => matchedCount data (phNames ps)).sum

/-- The result of the per-cell loop of `_replace_in_table` on a well-formed
cell: each paragraph gets its matched tokens simultaneously substituted. -/
def cellExpect (data : Data) (cell : SegFrame) : Frame :=
  cell.map fun ps => renderSegs (multiSubst data ps)

/-- A table at segment level: rows of cells, each a list of paragraph segment
lists. -/
abbrev SegTable := List (List SegFrame)

/-- Well-formedness of a segment table. -/
def GoodTable (t : SegTable) : Prop := ∀ row ∈ t, ∀ cell ∈ row, GoodFrame cell

instance : DecidablePred GoodTable := fun t =>
  inferInstanceAs (Decidable (∀ row ∈ t, ∀ cell ∈ row, GoodFrame cell))

/-- Render a segment table. -/
def renderTable (t : SegTable) : Table :=
  t.map fun row => row.map fun cell => cell.map renderSegs

/-- The expected table after one substitution pass. -/
def tableExpect (data : Data) (t : SegTable) : Table :=
  t.map fun row => row.map (cellExpect data)

/-- Matched-occurrence count of a table. -/
def tableCount (data : Data) (t : SegTable) : Nat :=
  (t.map fun row => (row.map (cellCount data)).sum).sum

/-- A shape at segment level. -/
structure SegShape where
  stf : Option SegFrame
  stbl : Option SegTable

/-- Well-formedness of the optional frame. -/
def GoodOptFrame : Option SegFrame → Prop
  | some sps => GoodFrame sps
  | none => True

instance : DecidablePred GoodOptFrame := fun o =>
  match o with
  | some sps => inferInstanceAs (Decidable (GoodFrame sps))
  | none => inferInstanceAs (Decidable True)

/-- Well-formedness of the optional table. -/
def GoodOptTable : Option SegTable → Prop
  | some t => GoodTable t
  | none => True

instance : DecidablePred GoodOptTable := fun o =>
  match o with
  | some t => inferInstanceAs (Decidable (GoodTable t))
  | none => inferInstanceAs (Decidable True)

/-- Well-formedness of a segment shape. -/
def GoodShape (s : SegShape) : Prop := GoodOptFrame s.stf ∧ GoodOptTable s.stbl

instance : DecidablePred GoodShape := fun s =>
  inferInstanceAs (Decidable (GoodOptFrame s.stf ∧ GoodOptTable s.stbl))

/-- Render a segment shape to a document shape. -/
def SegShape.render (s : SegShape) : Shape :=
  ⟨s.stf.map fun sps => sps.map renderSegs, s.stbl.map renderTable⟩

/-- A document at segment level: every paragraph of every frame and cell given
as a segment list. -/
abbrev SegDoc := List (List SegShape)

/-- Well-formedness of a segment document: every token name in it is brace-free
and newline-free, and no literal text contains an opening brace. -/
def GoodSDoc (sd : SegDoc) : Prop := ∀ sl ∈ sd, ∀ s ∈ sl, GoodShape s

instance : DecidablePred GoodSDoc := fun sd =>
  inferInstanceAs (Decidable (∀ sl ∈ sd, ∀ s ∈ sl, GoodShape s))

/-- Render a segment document to a document. -/
def renderSDoc (sd : SegDoc) : Document := sd.map fun sl => sl.map SegShape.render

/-- The expected shape after one substitution pass. -/
def shapeExpect (data : Data) (s : SegShape) : Shape :=
  ⟨s.stf.map (frameExpect data), s.stbl.map (tableExpect data)⟩

/-- Matched-occurrence count of a shape. -/
def shapeCount (data : Data) (s : SegShape) : Nat :=
  (match s.stf with
   | some sps => frameCount data sps
   | none => 0) +
  (match s.stbl with
   | some t => tableCount data t
   | none => 0)

/-- The expected document after one `replace_placeholders` pass. -/
def docExpect (data : Data) (sd : SegDoc) : Document :=
  sd.map fun sl => sl.map (shapeExpect data)

/-- The total occurrence count returned by `replace_placeholders`: one per
matched token occurrence, over all frames and table cells. -/
def docCount (data : Data) (sd : SegDoc) : Nat :=
  (sd.map fun sl => (sl.map (shapeCount data)).sum).sum

/-! ### Structural skeleton preservation -/

/-- The structural skeleton of a shape: whether it has a text frame, and the
grid dimensions plus per-cell paragraph counts of its table. -/
def shapeSkel (sh : Shape) : Bool × Option (List (List Nat)) :=
  (sh.text_frame.isSome, sh.table.map fun t => t.map fun row => row.map List.length)

/-- The structural skeleton of a document: slide count, shape count and order,
shape capability types, table dimensions. -/
def docSkel (d : Document) : List (List (Bool × Option (List (List Nat)))) :=
  d.map fun sl => sl.map shapeSkel

/-- Names of one shape in the order `get_placeholders_list` meets them. -/
def shapeNames (sh : Shape) : List Str :=
  (match sh.text_frame with
   | some tf => findall (frameText tf)
   | none => []) ++
  (match sh.table with
   | some t => (t.map fun row => (row.map fun cell => findall (cellText cell)).flatten).flatten
   | none => [])

/-- All placeholder names of a document, duplicates included, in traversal
order: frame text of every shape with a text frame, then every cell text of
every table shape. -/
def docNamesList (d : Document) : List Str :=
  (d.map fun sl => (sl.map shapeNames).flatten).flatten

/-! ### Basic facts about the scanner -/

theorem takeName_eq : ∀ (s : Str) (nr : Str × Str), takeName s = some nr →
    s = nr.1 ++ '}' :: '}' :: nr.2 := by
  intro s
  induction s with
  | nil => intro nr h; simp [takeName] at h
  | cons c rest ih =>
    intro nr h
    by_cases hnl : c = '\n'
    · simp [takeName, hnl] at h
    · by_cases hcl : c = '}' ∧ rest.head? = some '}'
      · rw [takeName, if_neg hnl, if_pos hcl] at h
        obtain ⟨hc, hh⟩ := hcl
        cases rest with
        | nil => simp at hh
        | cons c2 rest2 =>
          simp at hh
          injection h with h
          subst hc hh h
          rfl
      · rw [takeName, if_neg hnl, if_neg hcl] at h
        cases htk : takeName rest with
        | none => rw [htk] at h; simp at h
        | some nr' =>
          rw [htk] at h
          simp only [Option.map_some'] at h
          injection h with h2
          subst h2
          rw [ih nr' htk]
          rfl

theorem takeName_clean (t : Str) : ∀ (n : Str), (∀ c ∈ n, c ≠ '}' ∧ c ≠ '\n') →
    takeName (n ++ '}' :: '}' :: t) = some (n, t) := by
  intro n
  induction n with
  | nil =>
    intro _
    show takeName ('}' :: '}' :: t) = some ([], t)
    rw [takeName, if_neg (by decide), if_pos (by simp)]
    rfl
  | cons c n' ih =>
    intro hn
    obtain ⟨hc1, hc2⟩ := hn c (List.mem_cons_self c n')
    show takeName (c :: (n' ++ '}' :: '}' :: t)) = some (c :: n', t)
    rw [takeName, if_neg hc2, if_neg (by rintro ⟨h, -⟩; exact hc1 h),
      ih (fun x hx => hn x (List.mem_cons_of_mem c hx))]
    rfl

theorem scanF_nil : ∀ f, scanF f [] = [] := by
  intro f; cases f <;> rfl

theorem scanF_congr : ∀ (f1 : Nat) (s : Str) (f2 : Nat),
    s.length ≤ f1 → s.length ≤ f2 → scanF f1 s = scanF f2 s := by
  intro f1
  induction f1 with
  | zero =>
    intro s f2 h1 _
    have hs : s = [] := List.length_eq_zero.mp (Nat.le_zero.mp h1)
    subst hs
    rw [scanF_nil, scanF_nil]
  | succ f ih =>
    intro s f2 h1 h2
    cases s with
    | nil => rw [scanF_nil, scanF_nil]
    | cons c rest =>
      cases f2 with
      | zero => simp at h2
      | succ f2' =>
        simp only [List.length_cons, Nat.succ_le_succ_iff] at h1 h2
        by_cases hc : c = '{'
        · subst hc
          cases rest with
          | nil => rfl
          | cons c2 rest2 =>
            simp only [List.length_cons] at h1 h2
            by_cases hc2 : c2 = '{'
            · subst hc2
              cases htk : takeName rest2 with
              | some nr =>
                have heq := takeName_eq rest2 nr htk
                have hlen : nr.2.length + nr.1.length + 2 = rest2.length := by
                  rw [heq]; simp; omega
                simp only [scanF, htk, eq_self_iff_true, if_true]
                rw [ih nr.2 f2' (by omega) (by omega)]
              | none =>
                simp only [scanF, htk, eq_self_iff_true, if_true]
                rw [ih ('{' :: rest2) f2' (by simp; omega) (by simp; omega)]
            · simp only [scanF, eq_self_iff_true, if_true, if_neg hc2]
              rw [ih (c2 :: rest2) f2' (by simp; omega) (by simp; omega)]
        · simp only [scanF, if_neg hc]
          rw [ih rest f2' h1 h2]

theorem scan_nil : scan [] = [] := rfl

theorem scan_cons_ne {c : Char} (s : Str) (hc : c ≠ '{') :
    scan (c :: s) = Seg.lit c :: scan s := by
  show scanF (c :: s).length (c :: s) = _
  simp only [List.length_cons]
  simp only [scanF, if_neg hc]
  rfl

theorem scan_tok {rest : Str} {nr : Str × Str} (htk : takeName rest = some nr) :
    scan ('{' :: '{' :: rest) = Seg.ph nr.1 :: scan nr.2 := by
  show scanF ('{' :: '{' :: rest).length ('{' :: '{' :: rest) = _
  have heq := takeName_eq rest nr htk
  have hlen : nr.2.length + nr.1.length + 2 = rest.length := by
    rw [heq]; simp; omega
  simp only [List.length_cons]
  simp only [scanF, if_pos rfl, htk]
  rw [scanF_congr (rest.length + 1) nr.2 nr.2.length (by omega) (by omega)]
  rfl

theorem scan_fail {rest : Str} (htk : takeName rest = none) :
    scan ('{' :: '{' :: rest) = Seg.lit '{' :: scan ('{' :: rest) := by
  show scanF ('{' :: '{' :: rest).length ('{' :: '{' :: rest) = _
  simp only [List.length_cons]
  simp only [scanF, if_pos rfl, htk]
  rfl

/-! ### Basic facts about replaceAll -/

theorem replaceAllF_nil (pat rep : Str) : ∀ f, replaceAllF pat rep f [] = [] := by
  intro f; cases f <;> rfl

theorem replaceAllF_congr (pat rep : Str) : ∀ (f1 : Nat) (s : Str) (f2 : Nat),
    s.length ≤ f1 → s.length ≤ f2 → replaceAllF pat rep f1 s = replaceAllF pat rep f2 s := by
  intro f1
  induction f1 with
  | zero =>
    intro s f2 h1 _
    have hs : s = [] := List.length_eq_zero.mp (Nat.le_zero.mp h1)
    subst hs
    rw [replaceAllF_nil, replaceAllF_nil]
  | succ f ih =>
    intro s f2 h1 h2
    cases s with
    | nil => rw [replaceAllF_nil, replaceAllF_nil]
    | cons c rest =>
      cases f2 with
      | zero => simp at h2
      | succ f2' =>
        simp only [List.length_cons, Nat.succ_le_succ_iff] at h1 h2
        by_cases h : pat ≠ [] ∧ isPref pat (c :: rest) = true
        · have hp : 1 ≤ pat.length := by
            cases pat with
            | nil => exact absurd rfl h.1
            | cons a as => simp
          simp only [replaceAllF, if_pos h]
          rw [ih (List.drop pat.length (c :: rest)) f2'
            (by simp [List.length_drop]; omega) (by simp [List.length_drop]; omega)]
        · simp only [replaceAllF, if_neg h]
          rw [ih rest f2' h1 h2]

theorem replaceAll_nil (pat rep : Str) : replaceAll pat rep [] = [] := rfl

theorem replaceAll_hit {pat : Str} (rep : Str) {c : Char} {s : Str}
    (hp : pat ≠ []) (h : isPref pat (c :: s) = true) :
    replaceAll pat rep (c :: s) = rep ++ replaceAll pat rep (List.drop pat.length (c :: s)) := by
  have hp1 : 1 ≤ pat.length := by
    cases pat with
    | nil => exact absurd rfl hp
    | cons a as => simp
  show replaceAllF pat rep (c :: s).length (c :: s) = _
  simp only [List.length_cons]
  simp only [replaceAllF, if_pos (And.intro hp h)]
  rw [replaceAllF_congr pat rep s.length (List.drop pat.length (c :: s))
    (List.drop pat.length (c :: s)).length (by simp [List.length_drop]; omega) (le_refl _)]
  rfl

theorem replaceAll_miss {pat : Str} (rep : Str) {c : Char} {s : Str}
    (h : ¬(pat ≠ [] ∧ isPref pat (c :: s) = true)) :
    replaceAll pat rep (c :: s) = c :: replaceAll pat rep s := by
  show replaceAllF pat rep (c :: s).length (c :: s) = _
  simp only [List.length_cons]
  simp only [replaceAllF, if_neg h]
  rfl

theorem renderSegs_ph (n : Str) (rest : List Seg) :
    renderSegs (Seg.ph n :: rest) = phTok n ++ renderSegs rest := by
  simp [renderSegs, phTok]

theorem renderSegs_append : ∀ (xs ys : List Seg),
    renderSegs (xs ++ ys) = renderSegs xs ++ renderSegs ys := by
  intro xs ys
  induction xs with
  | nil => rfl
  | cons s rest ih =>
    cases s with
    | lit c => simp [renderSegs, ih]
    | ph n => simp [renderSegs, ih]

theorem renderSegs_lits : ∀ v : Str, renderSegs (v.map Seg.lit) = v := by
  intro v
  induction v with
  | nil => rfl
  | cons c rest ih => simp [renderSegs, ih]

theorem phNames_append : ∀ (xs ys : List Seg), phNames (xs ++ ys) = phNames xs ++ phNames ys := by
  intro xs ys
  induction xs with
  | nil => rfl
  | cons s rest ih =>
    cases s with
    | lit c => simp [phNames, ih]
    | ph n => simp [phNames, ih]

theorem phNames_lits (v : Str) : phNames (v.map Seg.lit) = [] := by
  induction v with
  | nil => rfl
  | cons c rest ih => simp [phNames, ih]

theorem mem_phNames : ∀ (ss : List Seg) (n : Str), n ∈ phNames ss ↔ Seg.ph n ∈ ss := by
  intro ss n
  induction ss with
  | nil => simp [phNames]
  | cons s rest ih =>
    cases s with
    | lit c => simp [phNames, ih]
    | ph m => simp [phNames, ih, List.mem_cons]

/-- Scanning the rendering of a well-formed segment list recovers it. -/
theorem scan_render : ∀ (ss : List Seg), (∀ s ∈ ss, GoodSeg s) → scan (renderSegs ss) = ss := by
  intro ss
  induction ss with
  | nil => intro _; exact scan_nil
  | cons s rest ih =>
    intro h
    have hrest := fun x hx => h x (List.mem_cons_of_mem s hx)
    cases s with
    | lit c =>
      have hc : c ≠ '{' := h (Seg.lit c) (List.mem_cons_self _ _)
      show scan (c :: renderSegs rest) = _
      rw [scan_cons_ne _ hc, ih hrest]
    | ph n =>
      have hn : CleanName n := h (Seg.ph n) (List.mem_cons_self _ _)
      show scan ('{' :: '{' :: (n ++ '}' :: '}' :: renderSegs rest)) = _
      rw [scan_tok (takeName_clean (renderSegs rest) n
        (fun c hc => ⟨(hn c hc).2.1, (hn c hc).2.2⟩))]
      rw [ih hrest]

/-- `findall` on a well-formed rendering returns exactly the token names. -/
theorem findall_render (ss : List Seg) (h : ∀ s ∈ ss, GoodSeg s) :
    findall (renderSegs ss) = phNames ss := by
  rw [findall, scan_render ss h]

/-! ### replaceAll over well-formed renderings -/

theorem isPref_self_append : ∀ (p t : Str), isPref p (p ++ t) = true := by
  intro p t
  induction p with
  | nil => rfl
  | cons a as ih => simp [isPref, ih]

theorem isPref_head_ne {a b : Char} (as bs : Str) (h : a ≠ b) :
    isPref (a :: as) (b :: bs) = false := by
  simp [isPref, h]

theorem drop_len_append : ∀ (p t : Str), List.drop p.length (p ++ t) = t := by
  intro p t
  induction p with
  | nil => rfl
  | cons a as _ => simp

/-- A token pattern never matches at a character that is not an opening brace. -/
theorem isPref_tok_lit {c : Char} (n : Str) (s : Str) (hc : c ≠ '{') :
    isPref (phTok n) (c :: s) = false := by
  rw [phTok]
  exact isPref_head_ne _ _ (fun h => hc h.symm)

/-- Two distinct brace-free names followed by their closing braces are never in
the prefix relation. -/
theorem isPref_names_ne : ∀ (n m t : Str), (∀ c ∈ n, c ≠ '}') → (∀ c ∈ m, c ≠ '}') →
    m ≠ n → isPref (n ++ ['}', '}']) (m ++ '}' :: '}' :: t) = false := by
  intro n
  induction n with
  | nil =>
    intro m t _ hm hne
    cases m with
    | nil => exact absurd rfl hne
    | cons c m' =>
      have hc : c ≠ '}' := hm c (List.mem_cons_self _ _)
      exact isPref_head_ne _ _ (fun h => hc h.symm)
  | cons a n' ih =>
    intro m t hn hm hne
    cases m with
    | nil =>
      have ha : a ≠ '}' := (hn a (List.mem_cons_self _ _))
      exact isPref_head_ne _ _ ha
    | cons c m' =>
      by_cases hac : a = c
      · subst hac
        show isPref (a :: (n' ++ ['}', '}'])) (a :: (m' ++ '}' :: '}' :: t)) = false
        have hrec := ih m' t (fun x hx => hn x (List.mem_cons_of_mem a hx))
          (fun x hx => hm x (List.mem_cons_of_mem a hx))
          (fun h => hne (by rw [h]))
        simp [isPref, hrec]
      · exact isPref_head_ne _ _ hac

/-- The pattern of name `n` does not match at the opening of a token of a
different clean name `m`. -/
theorem isPref_tok_ne {n m : Str} (t : Str) (hn : CleanName n) (hm : CleanName m)
    (hne : m ≠ n) : isPref (phTok n) ('{' :: '{' :: (m ++ '}' :: '}' :: t)) = false := by
  show isPref ('{' :: '{' :: (n ++ ['}', '}'])) ('{' :: '{' :: (m ++ '}' :: '}' :: t)) = false
  have := isPref_names_ne n m t (fun c hc => (hn c hc).2.1) (fun c hc => (hm c hc).2.1) hne
  simp [isPref, this]

theorem replaceAll_miss_of_false {pat : Str} (rep : Str) {c : Char} {s : Str}
    (h : isPref pat (c :: s) = false) :
    replaceAll pat rep (c :: s) = c :: replaceAll pat rep s :=
  replaceAll_miss rep (fun hc => by rw [h] at hc; exact Bool.false_ne_true hc.2)

/-- `replaceAll` with a token pattern walks through brace-free literal text. -/
theorem replaceAll_through (n v : Str) : ∀ (xs t : Str), (∀ c ∈ xs, c ≠ '{') →
    replaceAll (phTok n) v (xs ++ t) = xs ++ replaceAll (phTok n) v t := by
  intro xs
  induction xs with
  | nil => intro t _; rfl
  | cons c xs' ih =>
    intro t h
    have hc : c ≠ '{' := h c (List.mem_cons_self _ _)
    show replaceAll (phTok n) v (c :: (xs' ++ t)) = _
    rw [replaceAll_miss_of_false v (isPref_tok_lit n _ hc),
      ih t (fun x hx => h x (List.mem_cons_of_mem c hx))]
    rfl

/-- `replaceAll` with the matching pattern consumes the occurrence. -/
theorem replaceAll_self {pat : Str} (rep : Str) (t : Str) (hp : pat ≠ []) :
    replaceAll pat rep (pat ++ t) = rep ++ replaceAll pat rep t := by
  cases pat with
  | nil => exact absurd rfl hp
  | cons a as =>
    show replaceAll (a :: as) rep (a :: (as ++ t)) = _
    rw [replaceAll_hit rep hp (by simpa using isPref_self_append (a :: as) t)]
    congr 1
    congr 1
    show List.drop (a :: as).length ((a :: as) ++ t) = t
    exact drop_len_append (a :: as) t

theorem phTok_ne_nil (n : Str) : phTok n ≠ [] := by
  simp [phTok]

/-- `replaceAll` with a token pattern skips a whole token of a different clean
name. -/
theorem replaceAll_skip_tok {n m : Str} (v : Str) (X : Str) (hn : CleanName n)
    (hm : CleanName m) (hne : m ≠ n) :
    replaceAll (phTok n) v ('{' :: '{' :: (m ++ '}' :: '}' :: X)) =
      '{' :: '{' :: (m ++ '}' :: '}' :: replaceAll (phTok n) v X) := by
  rw [replaceAll_miss_of_false v (isPref_tok_ne X hn hm hne)]
  have h2 : isPref (phTok n) ('{' :: (m ++ '}' :: '}' :: X)) = false := by
    cases m with
    | nil =>
      show isPref ('{' :: '{' :: (n ++ ['}', '}'])) ('{' :: '}' :: '}' :: X) = false
      simp [isPref]
    | cons c m' =>
      have hc : c ≠ '{' := (hm c (List.mem_cons_self _ _)).1
      have hc' : ('{' : Char) ≠ c := fun h => hc h.symm
      show isPref ('{' :: '{' :: (n ++ ['}', '}'])) ('{' :: (c :: (m' ++ '}' :: '}' :: X))) = false
      simp [isPref, hc']
  rw [replaceAll_miss_of_false v h2]
  rw [replaceAll_through n v m ('}' :: '}' :: X) (fun c hc => (hm c hc).1)]
  rw [replaceAll_miss_of_false v (isPref_tok_lit n _ (by decide)),
    replaceAll_miss_of_false v (isPref_tok_lit n _ (by decide))]

/-- On a well-formed rendering, `replaceAll` with a clean token pattern is
exactly the segment-wise substitution of that name. -/
theorem replaceAll_render (n v : Str) (hn : CleanName n) :
    ∀ (ss : List Seg), (∀ s ∈ ss, GoodSeg s) →
    replaceAll (phTok n) v (renderSegs ss) = renderSegs (substOne n v ss) := by
  intro ss
  induction ss with
  | nil => intro _; rfl
  | cons s rest ih =>
    intro h
    have hrest := fun x hx => h x (List.mem_cons_of_mem s hx)
    cases s with
    | lit c =>
      have hc : c ≠ '{' := h (Seg.lit c) (List.mem_cons_self _ _)
      show replaceAll (phTok n) v (c :: renderSegs rest) = renderSegs (Seg.lit c :: substOne n v rest)
      rw [replaceAll_miss_of_false v (isPref_tok_lit n _ hc), ih hrest]
      rfl
    | ph m =>
      have hm : CleanName m := h (Seg.ph m) (List.mem_cons_self _ _)
      by_cases hmn : m = n
      · subst hmn
        rw [renderSegs_ph, replaceAll_self v (renderSegs rest) (phTok_ne_nil m), ih hrest]
        show v ++ renderSegs (substOne m v rest) =
          renderSegs ((if m = m then v.map Seg.lit else [Seg.ph m]) ++ substOne m v rest)
        rw [if_pos rfl, renderSegs_append, renderSegs_lits]
      · show replaceAll (phTok n) v ('{' :: '{' :: (m ++ '}' :: '}' :: renderSegs rest)) =
          renderSegs ((if m = n then v.map Seg.lit else [Seg.ph m]) ++ substOne n v rest)
        rw [if_neg hmn, replaceAll_skip_tok v (renderSegs rest) hn hm hmn, ih hrest,
          renderSegs_append]
        simp [renderSegs]

/-! ### The substitution loop as a simultaneous segment substitution -/

theorem lookupD_plain {data : Data} (hd : PlainVals data) :
    ∀ {n v : Str}, lookupD data n = some v → PlainStr v := by
  induction data with
  | nil => intro n v h; simp [lookupD] at h
  | cons p rest ih =>
    intro n v h
    rw [lookupD] at h
    by_cases hk : p.1 = n
    · rw [if_pos hk] at h
      injection h with h
      subst h
      exact hd p (List.mem_cons_self _ _)
    · rw [if_neg hk] at h
      exact ih (fun q hq => hd q (List.mem_cons_of_mem p hq)) h

theorem substOne_good {v : Str} (hv : PlainStr v) (n : Str) :
    ∀ ss : List Seg, (∀ s ∈ ss, GoodSeg s) → ∀ s ∈ substOne n v ss, GoodSeg s := by
  intro ss
  induction ss with
  | nil => intro _ s hs; simp [substOne] at hs
  | cons s0 rest ih =>
    intro h s hs
    have hrest := fun x hx => h x (List.mem_cons_of_mem s0 hx)
    cases s0 with
    | lit c =>
      rw [substOne] at hs
      rcases List.mem_cons.mp hs with h1 | h1
      · subst h1; exact h _ (List.mem_cons_self _ _)
      · exact ih hrest s h1
    | ph m =>
      rw [substOne] at hs
      rcases List.mem_append.mp hs with h1 | h1
      · by_cases hmn : m = n
        · rw [if_pos hmn] at h1
          rcases List.mem_map.mp h1 with ⟨c, hc, hcs⟩
          subst hcs
          exact hv c hc
        · rw [if_neg hmn] at h1
          rcases List.mem_singleton.mp h1 with rfl
          exact h _ (List.mem_cons_self _ _)
      · exact ih hrest s h1

theorem multiSubstOn_nil (data : Data) : ∀ ss, multiSubstOn data [] ss = ss := by
  intro ss
  induction ss with
  | nil => rfl
  | cons s rest ih =>
    cases s with
    | lit c => rw [multiSubstOn, ih]
    | ph m => rw [multiSubstOn, if_neg (List.not_mem_nil m), ih]; rfl

theorem mem_cons_ite {α : Type} {m n : Str} (ns : List Str) (hmn : m ≠ n) (X Y : List α) :
    (if m ∈ n :: ns then X else Y) = (if m ∈ ns then X else Y) := by
  by_cases hm : m ∈ ns
  · rw [if_pos hm, if_pos (List.mem_cons_of_mem n hm)]
  · rw [if_neg hm, if_neg (fun hc => by
      rcases List.mem_cons.mp hc with h | h
      · exact hmn h
      · exact hm h)]

theorem multiSubstOn_append (data : Data) (ns : List Str) :
    ∀ xs ys, multiSubstOn data ns (xs ++ ys) =
      multiSubstOn data ns xs ++ multiSubstOn data ns ys := by
  intro xs ys
  induction xs with
  | nil => rfl
  | cons s rest ih =>
    cases s with
    | lit c =>
      show multiSubstOn data ns (Seg.lit c :: (rest ++ ys)) = _
      rw [multiSubstOn, ih]
      rfl
    | ph m =>
      show multiSubstOn data ns (Seg.ph m :: (rest ++ ys)) = _
      rw [multiSubstOn, ih, multiSubstOn, List.append_assoc]

theorem multiSubstOn_lits (data : Data) (ns : List Str) (v : Str) :
    multiSubstOn data ns (v.map Seg.lit) = v.map Seg.lit := by
  induction v with
  | nil => rfl
  | cons c rest ih => simp only [List.map_cons, multiSubstOn, ih]

theorem multiSubstOn_substOne {data : Data} {n v : Str} (hl : lookupD data n = some v)
    (ns : List Str) :
    ∀ ss, multiSubstOn data ns (substOne n v ss) = multiSubstOn data (n :: ns) ss := by
  intro ss
  induction ss with
  | nil => rfl
  | cons s rest ih =>
    cases s with
    | lit c => simp only [substOne, multiSubstOn, ih]
    | ph m =>
      by_cases hmn : m = n
      · subst hmn
        rw [substOne, if_pos rfl]
        rw [multiSubstOn_append, multiSubstOn_lits, ih]
        show _ = (if m ∈ m :: ns then
             (match lookupD data m with
              | some v => v.map Seg.lit
              | none => [Seg.ph m])
           else [Seg.ph m]) ++ multiSubstOn data (m :: ns) rest
        rw [if_pos (List.mem_cons_self m ns), hl]
      · rw [substOne, if_neg hmn]
        show multiSubstOn data ns (Seg.ph m :: substOne n v rest) = _
        rw [multiSubstOn, multiSubstOn, ih, mem_cons_ite ns hmn]

theorem multiSubstOn_skip {data : Data} {n : Str} (hl : lookupD data n = none)
    (ns : List Str) : ∀ ss, multiSubstOn data ns ss = multiSubstOn data (n :: ns) ss := by
  intro ss
  induction ss with
  | nil => rfl
  | cons s rest ih =>
    cases s with
    | lit c => simp only [multiSubstOn, ih]
    | ph m =>
      by_cases hmn : m = n
      · subst hmn
        have : (if m ∈ ns then
             (match lookupD data m with
              | some v => v.map Seg.lit
              | none => [Seg.ph m])
           else [Seg.ph m]) = [Seg.ph m] := by
          by_cases hm : m ∈ ns
          · rw [if_pos hm, hl]
          · rw [if_neg hm]
        rw [multiSubstOn, this, multiSubstOn, if_pos (List.mem_cons_self m ns), hl, ih]
      · rw [multiSubstOn, multiSubstOn, ih, mem_cons_ite ns hmn]

theorem applyList_eq_multiSubstOn (data : Data) :
    ∀ (ns : List Str) (ss : List Seg), applyList data ns ss = multiSubstOn data ns ss := by
  intro ns
  induction ns with
  | nil => intro ss; rw [applyList, multiSubstOn_nil]
  | cons n ns ih =>
    intro ss
    cases hl : lookupD data n with
    | some v =>
      rw [applyList, hl]
      show applyList data ns (substOne n v ss) = _
      rw [ih, multiSubstOn_substOne hl]
    | none =>
      rw [applyList, hl]
      show applyList data ns ss = _
      rw [ih, multiSubstOn_skip hl]

theorem multiSubstOn_covering (data : Data) (ns : List Str) :
    ∀ ss, (∀ m ∈ phNames ss, m ∈ ns) → multiSubstOn data ns ss = multiSubst data ss := by
  intro ss
  induction ss with
  | nil => intro _; rfl
  | cons s rest ih =>
    intro h
    cases s with
    | lit c =>
      rw [multiSubstOn, multiSubst, ih (fun m hm => h m (by rw [phNames]; exact hm))]
    | ph m =>
      have hm : m ∈ ns := h m (by rw [phNames]; exact List.mem_cons_self _ _)
      rw [multiSubstOn, multiSubst, if_pos hm,
        ih (fun x hx => h x (by rw [phNames]; exact List.mem_cons_of_mem m hx))]

theorem phNames_clean {ss : List Seg} (h : ∀ s ∈ ss, GoodSeg s) :
    ∀ n ∈ phNames ss, CleanName n := by
  intro n hn
  exact h (Seg.ph n) ((mem_phNames ss n).mp hn)

theorem substText_loop (data : Data) (hd : PlainVals data) :
    ∀ (ns : List Str) (ss : List Seg) (k : Nat), (∀ n ∈ ns, CleanName n) →
    (∀ s ∈ ss, GoodSeg s) →
    ns.foldl (fun acc n =>
        match lookupD data n with
        | some v => (replaceAll (phTok n) v acc.1, acc.2 + 1)
        | none => acc) (renderSegs ss, k) =
      (renderSegs (applyList data ns ss), k + matchedCount data ns) := by
  intro ns
  induction ns with
  | nil => intro ss k _ _; simp [applyList, matchedCount]
  | cons n ns ih =>
    intro ss k hns hss
    have hn : CleanName n := hns n (List.mem_cons_self _ _)
    have hns' := fun x hx => hns x (List.mem_cons_of_mem n hx)
    cases hl : lookupD data n with
    | some v =>
      have hv : PlainStr v := lookupD_plain hd hl
      rw [List.foldl_cons]
      have hstep :
          (match lookupD data n with
            | some v => (replaceAll (phTok n) v (renderSegs ss), k + 1)
            | none => (renderSegs ss, k)) = (renderSegs (substOne n v ss), k + 1) := by
        rw [hl]
        show (replaceAll (phTok n) v (renderSegs ss), k + 1) = _
        rw [replaceAll_render n v hn ss hss]
      rw [hstep, ih (substOne n v ss) (k + 1) hns' (substOne_good hv n ss hss),
        applyList, hl]
      have : matchedCount data (n :: ns) = matchedCount data ns + 1 := by
        simp [matchedCount, List.countP_cons, hl]
      rw [this]
      congr 1
      omega
    | none =>
      rw [List.foldl_cons]
      have hstep :
          (match lookupD data n with
            | some v => (replaceAll (phTok n) v (renderSegs ss), k + 1)
            | none => (renderSegs ss, k)) = (renderSegs ss, k) := by
        rw [hl]
      rw [hstep, ih ss k hns' hss, applyList, hl]
      have : matchedCount data (n :: ns) = matchedCount data ns := by
        simp [matchedCount, List.countP_cons, hl]
      rw [this]

/-- The central lemma: one source substitution loop on the rendering of a
well-formed segment list is the simultaneous substitution, and the counter is
the number of token occurrences whose name is a key. -/
theorem substText_render (data : Data) (ss : List Seg) (hss : ∀ s ∈ ss, GoodSeg s)
    (hd : PlainVals data) :
    substText data (renderSegs ss) =
      (renderSegs (multiSubst data ss), matchedCount data (phNames ss)) := by
  rw [substText, findall_render ss hss,
    substText_loop data hd (phNames ss) ss 0 (phNames_clean hss) hss,
    applyList_eq_multiSubstOn,
    multiSubstOn_covering data (phNames ss) ss (fun m hm => hm)]
  simp

/-! ### Structure of the simultaneous substitution -/

theorem multiSubst_lit (data : Data) (c : Char) (rest : List Seg) :
    multiSubst data (Seg.lit c :: rest) = Seg.lit c :: multiSubst data rest := rfl

theorem multiSubst_ph_some {data : Data} {m v : Str} (hl : lookupD data m = some v)
    (rest : List Seg) :
    multiSubst data (Seg.ph m :: rest) = v.map Seg.lit ++ multiSubst data rest := by
  rw [multiSubst, hl]

theorem multiSubst_ph_none {data : Data} {m : Str} (hl : lookupD data m = none)
    (rest : List Seg) :
    multiSubst data (Seg.ph m :: rest) = Seg.ph m :: multiSubst data rest := by
  rw [multiSubst, hl]
  rfl

theorem multiSubst_good {data : Data} (hd : PlainVals data) :
    ∀ ss : List Seg, (∀ s ∈ ss, GoodSeg s) → ∀ s ∈ multiSubst data ss, GoodSeg s := by
  intro ss
  induction ss with
  | nil => intro _ s hs; simp [multiSubst] at hs
  | cons s0 rest ih =>
    intro h s hs
    have hrest := fun x hx => h x (List.mem_cons_of_mem s0 hx)
    cases s0 with
    | lit c =>
      rw [multiSubst_lit] at hs
      rcases List.mem_cons.mp hs with h1 | h1
      · subst h1; exact h _ (List.mem_cons_self _ _)
      · exact ih hrest s h1
    | ph m =>
      cases hl : lookupD data m with
      | some v =>
        rw [multiSubst_ph_some hl] at hs
        rcases List.mem_append.mp hs with h1 | h1
        · rcases List.mem_map.mp h1 with ⟨c, hc, hcs⟩
          subst hcs
          exact lookupD_plain hd hl c hc
        · exact ih hrest s h1
      | none =>
        rw [multiSubst_ph_none hl] at hs
        rcases List.mem_cons.mp hs with h1 | h1
        · subst h1; exact h _ (List.mem_cons_self _ _)
        · exact ih hrest s h1

theorem phNames_multiSubst (data : Data) :
    ∀ ss : List Seg, phNames (multiSubst data ss) =
      (phNames ss).filter fun n => (lookupD data n).isNone := by
  intro ss
  induction ss with
  | nil => rfl
  | cons s rest ih =>
    cases s with
    | lit c =>
      rw [multiSubst_lit]
      show phNames (multiSubst data rest) =
        List.filter (fun n => (lookupD data n).isNone) (phNames rest)
      exact ih
    | ph m =>
      cases hl : lookupD data m with
      | some v =>
        rw [multiSubst_ph_some hl, phNames_append, phNames_lits, ih]
        show _ = List.filter (fun n => (lookupD data n).isNone) (m :: phNames rest)
        rw [List.filter_cons]
        simp [hl]
      | none =>
        rw [multiSubst_ph_none hl]
        show m :: phNames (multiSubst data rest) = _
        rw [ih]
        show _ = List.filter (fun n => (lookupD data n).isNone) (m :: phNames rest)
        rw [List.filter_cons]
        simp [hl]

theorem multiSubst_id {data : Data} :
    ∀ ss : List Seg, (∀ n ∈ phNames ss, lookupD data n = none) →
    multiSubst data ss = ss := by
  intro ss
  induction ss with
  | nil => intro _; rfl
  | cons s rest ih =>
    intro h
    cases s with
    | lit c =>
      rw [multiSubst_lit, ih (fun n hn => h n (by rw [phNames]; exact hn))]
    | ph m =>
      have hl : lookupD data m = none := h m (by rw [phNames]; exact List.mem_cons_self _ _)
      rw [multiSubst_ph_none hl,
        ih (fun n hn => h n (by rw [phNames]; exact List.mem_cons_of_mem m hn))]

theorem matchedCount_eq_zero {data : Data} {ns : List Str} :
    matchedCount data ns = 0 ↔ ∀ n ∈ ns, lookupD data n = none := by
  rw [matchedCount, List.countP_eq_zero]
  constructor
  · intro h n hn
    have := h n hn
    cases hl : lookupD data n with
    | none => rfl
    | some v => rw [hl] at this; simp at this
  · intro h n hn
    simp [h n hn]

theorem render_inter : ∀ sps : List (List Seg),
    renderSegs (interSegNl sps) = interNl (sps.map renderSegs) := by
  intro sps
  induction sps with
  | nil => rfl
  | cons p rest ih =>
    cases rest with
    | nil => rfl
    | cons q rest2 =>
      show renderSegs (p ++ Seg.lit '\n' :: interSegNl (q :: rest2)) =
        interNl (renderSegs p :: renderSegs q :: List.map renderSegs rest2)
      rw [renderSegs_append, interNl]
      congr 1
      show renderSegs (Seg.lit '\n' :: interSegNl (q :: rest2)) = _
      rw [renderSegs]
      rw [ih]
      rfl

theorem good_inter : ∀ sps : List (List Seg), (∀ p ∈ sps, ∀ s ∈ p, GoodSeg s) →
    ∀ s ∈ interSegNl sps, GoodSeg s := by
  intro sps
  induction sps with
  | nil => intro _ s hs; simp [interSegNl] at hs
  | cons p rest ih =>
    intro h s hs
    cases rest with
    | nil => exact h p (List.mem_cons_self _ _) s hs
    | cons q rest2 =>
      rw [interSegNl] at hs
      rcases List.mem_append.mp hs with h1 | h1
      · exact h p (List.mem_cons_self _ _) s h1
      · rcases List.mem_cons.mp h1 with h2 | h2
        · subst h2; intro hcon; cases hcon
        · exact ih (fun x hx => h x (List.mem_cons_of_mem p hx)) s h2

theorem phNames_inter : ∀ sps : List (List Seg),
    phNames (interSegNl sps) = (sps.map phNames).flatten := by
  intro sps
  induction sps with
  | nil => rfl
  | cons p rest ih =>
    cases rest with
    | nil => show phNames p = phNames p ++ [].flatten; simp
    | cons q rest2 =>
      show phNames (p ++ Seg.lit '\n' :: interSegNl (q :: rest2)) = _
      rw [phNames_append]
      show phNames p ++ phNames (interSegNl (q :: rest2)) = _
      rw [ih]
      rfl

theorem braceCount_render {ss : List Seg} (h : ∀ s ∈ ss, GoodSeg s) :
    braceCount (renderSegs ss) = 2 * (phNames ss).length := by
  induction ss with
  | nil => rfl
  | cons s rest ih =>
    have hrest := fun x hx => h x (List.mem_cons_of_mem s hx)
    cases s with
    | lit c =>
      have hc : c ≠ '{' := h (Seg.lit c) (List.mem_cons_self _ _)
      show braceCount (c :: renderSegs rest) = 2 * (phNames rest).length
      have hcb : (c == '{') = false := by simp [hc]
      rw [braceCount, List.countP_cons, hcb]
      rw [if_neg (by simp)]
      rw [Nat.add_zero]
      exact ih hrest
    | ph n =>
      have hn : CleanName n := h (Seg.ph n) (List.mem_cons_self _ _)
      show braceCount ('{' :: '{' :: (n ++ '}' :: '}' :: renderSegs rest)) =
        2 * (n :: phNames rest).length
      have hzero : n.countP (fun c => c == '{') = 0 := by
        rw [List.countP_eq_zero]
        intro c hc
        simp [(hn c hc).1]
      rw [braceCount, List.countP_cons, List.countP_cons, List.countP_append, hzero,
        List.countP_cons, List.countP_cons]
      rw [if_pos (by decide : ('{' == '{') = true),
        if_neg (by decide : ¬('}' == '{') = true)]
      have hih := ih hrest
      rw [braceCount] at hih
      simp only [List.length_cons]
      omega

theorem count_split (data : Data) : ∀ ns : List Str,
    ((ns.filter fun n => (lookupD data n).isNone).length + matchedCount data ns = ns.length) := by
  intro ns
  induction ns with
  | nil => rfl
  | cons n rest ih =>
    rw [List.filter_cons, matchedCount, List.countP_cons]
    rw [matchedCount] at ih
    cases hl : lookupD data n with
    | none => simp; omega
    | some v => simp; omega

theorem render_ne_of_matched {data : Data} {ss : List Seg} (hss : ∀ s ∈ ss, GoodSeg s)
    (hd : PlainVals data) (hm : matchedCount data (phNames ss) ≠ 0) :
    renderSegs (multiSubst data ss) ≠ renderSegs ss := by
  intro hc
  have h1 : braceCount (renderSegs (multiSubst data ss)) = braceCount (renderSegs ss) := by
    rw [hc]
  rw [braceCount_render hss, braceCount_render (multiSubst_good hd ss hss),
    phNames_multiSubst] at h1
  have h2 := count_split data (phNames ss)
  omega

theorem splitNl_cons_ex : ∀ s : Str, ∃ l ls, splitNl s = l :: ls := by
  intro s
  induction s with
  | nil => exact ⟨[], [], rfl⟩
  | cons c rest ih =>
    by_cases hc : c = '\n'
    · exact ⟨[], splitNl rest, by rw [splitNl, if_pos hc]⟩
    · obtain ⟨l, ls, hl⟩ := ih
      refine ⟨c :: l, ls, ?_⟩
      rw [splitNl, if_neg hc, hl]

theorem splitSegsNl_cons_ex : ∀ ss : List Seg, ∃ l ls, splitSegsNl ss = l :: ls := by
  intro ss
  induction ss with
  | nil => exact ⟨[], [], rfl⟩
  | cons s rest ih =>
    obtain ⟨l, ls, hl⟩ := ih
    cases s with
    | lit c =>
      by_cases hc : c = '\n'
      · exact ⟨[], splitSegsNl rest, by rw [splitSegsNl, if_pos hc]⟩
      · refine ⟨Seg.lit c :: l, ls, ?_⟩
        rw [splitSegsNl, if_neg hc, hl]
    | ph n =>
      refine ⟨Seg.ph n :: l, ls, ?_⟩
      rw [splitSegsNl, hl]

theorem splitNl_pre : ∀ (xs s : Str) (l : Str) (ls : List Str), (∀ c ∈ xs, c ≠ '\n') →
    splitNl s = l :: ls → splitNl (xs ++ s) = (xs ++ l) :: ls := by
  intro xs
  induction xs with
  | nil => intro s l ls _ h; simpa using h
  | cons c xs' ih =>
    intro s l ls hx h
    have hc : c ≠ '\n' := hx c (List.mem_cons_self _ _)
    show splitNl (c :: (xs' ++ s)) = _
    rw [splitNl, if_neg hc, ih s l ls (fun x hxm => hx x (List.mem_cons_of_mem c hxm)) h]
    rfl

/-- Splitting the rendering of a well-formed segment list at newlines is the
rendering of the segment-level split. -/
theorem splitNl_render : ∀ ss : List Seg, (∀ s ∈ ss, GoodSeg s) →
    splitNl (renderSegs ss) = (splitSegsNl ss).map renderSegs := by
  intro ss
  induction ss with
  | nil => intro _; rfl
  | cons s rest ih =>
    intro h
    have hrest := fun x hx => h x (List.mem_cons_of_mem s hx)
    cases s with
    | lit c =>
      by_cases hc : c = '\n'
      · subst hc
        show splitNl ('\n' :: renderSegs rest) = List.map renderSegs (splitSegsNl (Seg.lit '\n' :: rest))
        rw [splitNl, if_pos rfl, splitSegsNl, if_pos rfl, List.map_cons, ih hrest]
        rfl
      · obtain ⟨l, ls, hl⟩ := splitSegsNl_cons_ex rest
        show splitNl (c :: renderSegs rest) = List.map renderSegs (splitSegsNl (Seg.lit c :: rest))
        rw [splitNl, if_neg hc, ih hrest, hl, splitSegsNl, if_neg hc, hl]
        rfl
    | ph n =>
      have hn : CleanName n := h (Seg.ph n) (List.mem_cons_self _ _)
      obtain ⟨l, ls, hl⟩ := splitSegsNl_cons_ex rest
      have hmap : splitNl (renderSegs rest) = renderSegs l :: List.map renderSegs ls := by
        rw [ih hrest, hl]
        rfl
      have hxs : ∀ c ∈ phTok n, c ≠ '\n' := by
        intro c hc
        rw [phTok] at hc
        rcases List.mem_cons.mp hc with rfl | hc2
        · decide
        · rcases List.mem_cons.mp hc2 with rfl | hc3
          · decide
          · rcases List.mem_append.mp hc3 with hc4 | hc4
            · exact (hn c hc4).2.2
            · rcases List.mem_cons.mp hc4 with rfl | hc5
              · decide
              · rcases List.mem_cons.mp hc5 with rfl | hc6
                · decide
                · simp at hc6
      show splitNl (renderSegs (Seg.ph n :: rest)) = List.map renderSegs (splitSegsNl (Seg.ph n :: rest))
      rw [renderSegs_ph, splitNl_pre (phTok n) (renderSegs rest) (renderSegs l)
        (List.map renderSegs ls) hxs hmap, splitSegsNl, hl, List.map_cons]
      show (phTok n ++ renderSegs l) :: List.map renderSegs ls =
        renderSegs (Seg.ph n :: l) :: List.map renderSegs ls
      rw [renderSegs_ph]

theorem interNl_splitNl : ∀ s : Str, interNl (splitNl s) = s := by
  intro s
  induction s with
  | nil => rfl
  | cons c rest ih =>
    by_cases hc : c = '\n'
    · subst hc
      obtain ⟨l, ls, hl⟩ := splitNl_cons_ex rest
      rw [splitNl, if_pos rfl, hl]
      show interNl ([] :: l :: ls) = '\n' :: rest
      rw [interNl]
      rw [hl] at ih
      rw [ih]
      rfl
    · obtain ⟨l, ls, hl⟩ := splitNl_cons_ex rest
      rw [splitNl, if_neg hc, hl]
      rw [hl] at ih
      cases ls with
      | nil =>
        show interNl [c :: l] = c :: rest
        rw [interNl]
        have : interNl [l] = rest := ih
        rw [interNl] at this
        rw [this]
      | cons l2 ls2 =>
        show interNl ((c :: l) :: l2 :: ls2) = c :: rest
        rw [interNl]
        have : interNl (l :: l2 :: ls2) = rest := ih
        rw [interNl] at this
        rw [← this]
        rfl

theorem interSeg_splitSegs : ∀ ss : List Seg, interSegNl (splitSegsNl ss) = ss := by
  intro ss
  induction ss with
  | nil => rfl
  | cons s rest ih =>
    cases s with
    | lit c =>
      by_cases hc : c = '\n'
      · subst hc
        obtain ⟨l, ls, hl⟩ := splitSegsNl_cons_ex rest
        rw [splitSegsNl, if_pos rfl, hl]
        show interSegNl ([] :: l :: ls) = Seg.lit '\n' :: rest
        rw [interSegNl]
        rw [hl] at ih
        rw [ih]
        rfl
      · obtain ⟨l, ls, hl⟩ := splitSegsNl_cons_ex rest
        rw [splitSegsNl, if_neg hc, hl]
        rw [hl] at ih
        cases ls with
        | nil =>
          show interSegNl [Seg.lit c :: l] = Seg.lit c :: rest
          rw [interSegNl]
          have : interSegNl [l] = rest := ih
          rw [interSegNl] at this
          rw [this]
        | cons l2 ls2 =>
          show interSegNl ((Seg.lit c :: l) :: l2 :: ls2) = Seg.lit c :: rest
          rw [interSegNl]
          have : interSegNl (l :: l2 :: ls2) = rest := ih
          rw [interSegNl] at this
          rw [← this]
          rfl
    | ph n =>
      obtain ⟨l, ls, hl⟩ := splitSegsNl_cons_ex rest
      rw [splitSegsNl, hl]
      rw [hl] at ih
      cases ls with
      | nil =>
        show interSegNl [Seg.ph n :: l] = Seg.ph n :: rest
        rw [interSegNl]
        have : interSegNl [l] = rest := ih
        rw [interSegNl] at this
        rw [this]
      | cons l2 ls2 =>
        show interSegNl ((Seg.ph n :: l) :: l2 :: ls2) = Seg.ph n :: rest
        rw [interSegNl]
        have : interSegNl (l :: l2 :: ls2) = rest := ih
        rw [interSegNl] at this
        rw [← this]
        rfl

theorem mem_splitSegsNl : ∀ (ss : List Seg) (chunk : List Seg), chunk ∈ splitSegsNl ss →
    ∀ s ∈ chunk, s ∈ ss := by
  intro ss
  induction ss with
  | nil =>
    intro chunk hc s hs
    rcases List.mem_singleton.mp hc with rfl
    simp at hs
  | cons s0 rest ih =>
    intro chunk hc s hs
    cases s0 with
    | lit c =>
      by_cases hnl : c = '\n'
      · rw [splitSegsNl, if_pos hnl] at hc
        rcases List.mem_cons.mp hc with rfl | h2
        · simp at hs
        · exact List.mem_cons_of_mem _ (ih chunk h2 s hs)
      · obtain ⟨l, ls, hl⟩ := splitSegsNl_cons_ex rest
        rw [splitSegsNl, if_neg hnl, hl] at hc
        rcases List.mem_cons.mp hc with rfl | h2
        · rcases List.mem_cons.mp hs with rfl | h3
          · exact List.mem_cons_self _ _
          · exact List.mem_cons_of_mem _ (ih l (by rw [hl]; exact List.mem_cons_self _ _) s h3)
        · exact List.mem_cons_of_mem _ (ih chunk (by rw [hl]; exact List.mem_cons_of_mem _ h2) s hs)
    | ph n =>
      obtain ⟨l, ls, hl⟩ := splitSegsNl_cons_ex rest
      rw [splitSegsNl, hl] at hc
      rcases List.mem_cons.mp hc with rfl | h2
      · rcases List.mem_cons.mp hs with rfl | h3
        · exact List.mem_cons_self _ _
        · exact List.mem_cons_of_mem _ (ih l (by rw [hl]; exact List.mem_cons_self _ _) s h3)
      · exact List.mem_cons_of_mem _ (ih chunk (by rw [hl]; exact List.mem_cons_of_mem _ h2) s hs)

theorem render_eq_nil : ∀ ss : List Seg, renderSegs ss = [] → ss = [] := by
  intro ss h
  cases ss with
  | nil => rfl
  | cons s rest =>
    cases s with
    | lit c => simp [renderSegs] at h
    | ph n => simp [renderSegs] at h

theorem map_self {α : Type} (f : α → α) : ∀ l : List α, (∀ a ∈ l, f a = a) → l.map f = l := by
  intro l
  induction l with
  | nil => intro _; rfl
  | cons a rest ih =>
    intro h
    rw [List.map_cons, h a (List.mem_cons_self _ _),
      ih (fun x hx => h x (List.mem_cons_of_mem a hx))]

theorem substText_unmatched {data : Data} {ss : List Seg} (hss : ∀ s ∈ ss, GoodSeg s)
    (hd : PlainVals data) (h : ∀ n ∈ phNames ss, lookupD data n = none) :
    substText data (renderSegs ss) = (renderSegs ss, 0) := by
  rw [substText_render data ss hss hd, multiSubst_id ss h, matchedCount_eq_zero.mpr h]

theorem frame_spec (data : Data) (hd : PlainVals data) (sps : SegFrame)
    (h : GoodFrame sps) :
    replaceInTextFrame data (sps.map renderSegs) =
      (frameExpect data sps, matchedCount data (phNames (interSegNl sps))) := by
  have hgood : ∀ s ∈ interSegNl sps, GoodSeg s := good_inter sps h
  have htext : frameText (sps.map renderSegs) = renderSegs (interSegNl sps) := by
    rw [frameText, render_inter]
  by_cases hz : frameText (sps.map renderSegs) = []
  · have hss : interSegNl sps = [] := render_eq_nil _ (by rw [← htext]; exact hz)
    have hmz : matchedCount data (phNames (interSegNl sps)) = 0 := by
      rw [hss]; rfl
    rw [replaceInTextFrame, if_pos hz, frameExpect, if_pos hmz, hmz]
  · rw [replaceInTextFrame, if_neg hz]
    by_cases hm : matchedCount data (phNames (interSegNl sps)) = 0
    · have hnone := matchedCount_eq_zero.mp hm
      have hsub : substText data (frameText (sps.map renderSegs)) =
          (frameText (sps.map renderSegs), 0) := by
        rw [htext]
        exact substText_unmatched hgood hd hnone
      have hpar : ∀ p ∈ sps.map renderSegs, substText data p = (p, 0) := by
        intro p hp
        rcases List.mem_map.mp hp with ⟨sp, hsp, rfl⟩
        refine substText_unmatched (h sp hsp) hd ?_
        intro n hn
        refine hnone n ?_
        rw [phNames_inter]
        exact List.mem_flatten.mpr ⟨phNames sp, List.mem_map_of_mem phNames hsp, hn⟩
      simp only [hsub]
      rw [if_true]
      rw [map_self (fun p => (substText data p).1) (sps.map renderSegs)
        (fun p hp => by simp only [hpar p hp])]
      rw [List.sum_eq_zero (by
        intro x hx
        rcases List.mem_map.mp hx with ⟨p, hp, rfl⟩
        rw [hpar p hp])]
      rw [frameExpect, if_pos hm, hm]
      rfl
    · have hne : renderSegs (multiSubst data (interSegNl sps)) ≠
          frameText (sps.map renderSegs) := by
        rw [htext]
        exact render_ne_of_matched hgood hd hm
      have hsub : substText data (frameText (sps.map renderSegs)) =
          (renderSegs (multiSubst data (interSegNl sps)),
           matchedCount data (phNames (interSegNl sps))) := by
        rw [htext]
        exact substText_render data (interSegNl sps) hgood hd
      have hgood2 : ∀ s ∈ multiSubst data (interSegNl sps), GoodSeg s :=
        multiSubst_good hd (interSegNl sps) hgood
      have hsplit : splitNl (renderSegs (multiSubst data (interSegNl sps))) =
          (splitSegsNl (multiSubst data (interSegNl sps))).map renderSegs :=
        splitNl_render _ hgood2
      have hpar : ∀ p ∈ splitNl (renderSegs (multiSubst data (interSegNl sps))),
          substText data p = (p, 0) := by
        intro p hp
        rw [hsplit] at hp
        rcases List.mem_map.mp hp with ⟨chunk, hchunk, rfl⟩
        have hcg : ∀ s ∈ chunk, GoodSeg s :=
          fun s hs => hgood2 s (mem_splitSegsNl _ chunk hchunk s hs)
        refine substText_unmatched hcg hd ?_
        intro n hn
        have h1 : Seg.ph n ∈ multiSubst data (interSegNl sps) :=
          mem_splitSegsNl _ chunk hchunk _ ((mem_phNames chunk n).mp hn)
        have h2 : n ∈ phNames (multiSubst data (interSegNl sps)) :=
          (mem_phNames _ n).mpr h1
        rw [phNames_multiSubst] at h2
        have h3 := (List.mem_filter.mp h2).2
        cases hl : lookupD data n with
        | none => rfl
        | some v => rw [hl] at h3; simp at h3
      simp only [hsub]
      rw [if_neg hne]
      rw [map_self (fun p => (substText data p).1) _
        (fun p hp => by simp only [hpar p hp])]
      rw [List.sum_eq_zero (by
        intro x hx
        rcases List.mem_map.mp hx with ⟨p, hp, rfl⟩
        rw [hpar p hp])]
      rw [frameExpect, if_neg hm]
      rfl

/-! ### Cells, tables, shapes and documents at segment level -/

theorem map_congr_mem {α β : Type} (f g : α → β) : ∀ l : List α, (∀ a ∈ l, f a = g a) →
    l.map f = l.map g := by
  intro l
  induction l with
  | nil => intro _; rfl
  | cons a rest ih =>
    intro h
    rw [List.map_cons, List.map_cons, h a (List.mem_cons_self _ _),
      ih (fun x hx => h x (List.mem_cons_of_mem a hx))]

theorem cell_spec (data : Data) (hd : PlainVals data) (cs : SegFrame)
    (h : GoodFrame cs) :
    replaceInCell data (cs.map renderSegs) = (cellExpect data cs, cellCount data cs) := by
  rw [replaceInCell, cellExpect, cellCount, List.map_map, List.map_map]
  have h1 : ∀ ps ∈ cs, ((fun p => (substText data p).1) ∘ renderSegs) ps =
      renderSegs (multiSubst data ps) := by
    intro ps hps
    show (substText data (renderSegs ps)).1 = _
    rw [substText_render data ps (h ps hps) hd]
  have h2 : ∀ ps ∈ cs, ((fun p => (substText data p).2) ∘ renderSegs) ps =
      matchedCount data (phNames ps) := by
    intro ps hps
    show (substText data (renderSegs ps)).2 = _
    rw [substText_render data ps (h ps hps) hd]
  rw [map_congr_mem _ _ cs h1, map_congr_mem _ _ cs h2]

theorem table_spec (data : Data) (hd : PlainVals data) (t : SegTable)
    (h : GoodTable t) :
    replaceInTable data (renderTable t) = (tableExpect data t, tableCount data t) := by
  rw [replaceInTable, renderTable, tableExpect, tableCount, List.map_map, List.map_map]
  have h1 : ∀ row ∈ t,
      ((fun r => r.map fun cell => (replaceInCell data cell).1) ∘
        (fun r : List SegFrame => r.map fun cell => cell.map renderSegs)) row =
      row.map (cellExpect data) := by
    intro row hrow
    show (row.map fun cell => cell.map renderSegs).map (fun cell => (replaceInCell data cell).1) =
      row.map (cellExpect data)
    rw [List.map_map]
    refine map_congr_mem _ _ row ?_
    intro cell hcell
    show (replaceInCell data (cell.map renderSegs)).1 = _
    rw [cell_spec data hd cell (h row hrow cell hcell)]
  have h2 : ∀ row ∈ t,
      ((fun r => (r.map fun cell => (replaceInCell data cell).2).sum) ∘
        (fun r : List SegFrame => r.map fun cell => cell.map renderSegs)) row =
      (row.map (cellCount data)).sum := by
    intro row hrow
    show ((row.map fun cell => cell.map renderSegs).map
      (fun cell => (replaceInCell data cell).2)).sum = (row.map (cellCount data)).sum
    rw [List.map_map]
    congr 1
    refine map_congr_mem _ _ row ?_
    intro cell hcell
    show (replaceInCell data (cell.map renderSegs)).2 = _
    rw [cell_spec data hd cell (h row hrow cell hcell)]
  rw [map_congr_mem _ _ t h1, map_congr_mem _ _ t h2]

theorem shape_spec (data : Data) (hd : PlainVals data) (s : SegShape)
    (h : GoodShape s) :
    shapeRepl data s.render = (shapeExpect data s, shapeCount data s) := by
  obtain ⟨htf, htbl⟩ := h
  cases s with
  | mk stf stbl =>
    cases stf with
    | none =>
      cases stbl with
      | none => rfl
      | some t =>
        show shapeRepl data ⟨none, some (renderTable t)⟩ = _
        simp only [shapeRepl, table_spec data hd t htbl]
        rfl
    | some sps =>
      have h1 := frame_spec data hd sps htf
      cases stbl with
      | none =>
        show shapeRepl data ⟨some (sps.map renderSegs), none⟩ = _
        simp only [shapeRepl, h1]
        rfl
      | some t =>
        show shapeRepl data ⟨some (sps.map renderSegs), some (renderTable t)⟩ = _
        simp only [shapeRepl, h1, table_spec data hd t htbl]
        rfl

/-- `replace_placeholders` on the rendering of a well-formed segment document:
the result is the simultaneous substitution and the count is the number of
matched token occurrences. -/
theorem docRepl_spec (data : Data) (hd : PlainVals data) (sd : SegDoc)
    (h : GoodSDoc sd) :
    docRepl data (renderSDoc sd) = (docExpect data sd, docCount data sd) := by
  rw [docRepl, renderSDoc, docExpect, docCount, List.map_map, List.map_map]
  have h1 : ∀ sl ∈ sd,
      ((fun l => l.map fun sh => (shapeRepl data sh).1) ∘ (fun sl : List SegShape => sl.map SegShape.render)) sl =
      sl.map (shapeExpect data) := by
    intro sl hsl
    show (sl.map SegShape.render).map (fun sh => (shapeRepl data sh).1) = _
    rw [List.map_map]
    refine map_congr_mem _ _ sl ?_
    intro s hs
    show (shapeRepl data s.render).1 = _
    rw [shape_spec data hd s (h sl hsl s hs)]
  have h2 : ∀ sl ∈ sd,
      ((fun l => (l.map fun sh => (shapeRepl data sh).2).sum) ∘ (fun sl : List SegShape => sl.map SegShape.render)) sl =
      (sl.map (shapeCount data)).sum := by
    intro sl hsl
    show ((sl.map SegShape.render).map (fun sh => (shapeRepl data sh).2)).sum = _
    rw [List.map_map]
    congr 1
    refine map_congr_mem _ _ sl ?_
    intro s hs
    show (shapeRepl data s.render).2 = _
    rw [shape_spec data hd s (h sl hsl s hs)]
  rw [map_congr_mem _ _ sd h1, map_congr_mem _ _ sd h2]

/-! ### A second pass matches nothing -/

theorem multiSubst_unmatched (data : Data) (ss : List Seg) :
    ∀ n ∈ phNames (multiSubst data ss), lookupD data n = none := by
  intro n hn
  rw [phNames_multiSubst] at hn
  have h2 := (List.mem_filter.mp hn).2
  cases hl : lookupD data n with
  | none => rfl
  | some v => rw [hl] at h2; simp at h2

theorem frame_second (data : Data) (hd : PlainVals data) (sps : SegFrame)
    (h : GoodFrame sps) :
    replaceInTextFrame data (frameExpect data sps) = (frameExpect data sps, 0) := by
  by_cases hm : matchedCount data (phNames (interSegNl sps)) = 0
  · have hspec := frame_spec data hd sps h
    rw [frameExpect, if_pos hm] at hspec ⊢
    rw [hspec, hm]
  · rw [frameExpect, if_neg hm]
    have hgood : ∀ s ∈ interSegNl sps, GoodSeg s := good_inter sps h
    have hgood2 : ∀ s ∈ multiSubst data (interSegNl sps), GoodSeg s :=
      multiSubst_good hd _ hgood
    have hsplit := splitNl_render _ hgood2
    have hgf2 : GoodFrame (splitSegsNl (multiSubst data (interSegNl sps))) := by
      intro p hp s hs
      exact hgood2 s (mem_splitSegsNl _ p hp s hs)
    have hcnt2 : matchedCount data
        (phNames (interSegNl (splitSegsNl (multiSubst data (interSegNl sps))))) = 0 := by
      rw [interSeg_splitSegs, matchedCount_eq_zero]
      exact multiSubst_unmatched data _
    rw [hsplit]
    rw [frame_spec data hd _ hgf2, hcnt2, frameExpect, if_pos hcnt2]

theorem cell_second (data : Data) (hd : PlainVals data) (cs : SegFrame)
    (h : GoodFrame cs) :
    replaceInCell data (cellExpect data cs) = (cellExpect data cs, 0) := by
  have hrw : cellExpect data cs = (cs.map (multiSubst data)).map renderSegs := by
    rw [cellExpect, List.map_map]
    rfl
  have hg2 : GoodFrame (cs.map (multiSubst data)) := by
    intro p hp s hs
    rcases List.mem_map.mp hp with ⟨ps, hps, rfl⟩
    exact multiSubst_good hd ps (h ps hps) s hs
  rw [hrw, cell_spec data hd _ hg2]
  have e1 : cellExpect data (cs.map (multiSubst data)) = (cs.map (multiSubst data)).map renderSegs := by
    rw [cellExpect]
    refine map_congr_mem _ _ _ ?_
    intro ps hps
    rcases List.mem_map.mp hps with ⟨ps0, _, rfl⟩
    rw [multiSubst_id (multiSubst data ps0) (multiSubst_unmatched data ps0)]
  have e2 : cellCount data (cs.map (multiSubst data)) = 0 := by
    rw [cellCount]
    refine List.sum_eq_zero ?_
    intro x hx
    rcases List.mem_map.mp hx with ⟨ps, hps, rfl⟩
    rcases List.mem_map.mp hps with ⟨ps0, _, rfl⟩
    rw [matchedCount_eq_zero]
    exact multiSubst_unmatched data ps0
  rw [e1, e2]

theorem table_second (data : Data) (hd : PlainVals data) (t : SegTable)
    (h : GoodTable t) :
    replaceInTable data (tableExpect data t) = (tableExpect data t, 0) := by
  have hcell : ∀ row ∈ tableExpect data t, ∀ cell ∈ row,
      replaceInCell data cell = (cell, 0) := by
    intro row hrow cell hcell
    rcases List.mem_map.mp hrow with ⟨row0, hrow0, rfl⟩
    rcases List.mem_map.mp hcell with ⟨c0, hc0, rfl⟩
    exact cell_second data hd c0 (h row0 hrow0 c0 hc0)
  have comp1 : (tableExpect data t).map
      (fun row => row.map fun cell => (replaceInCell data cell).1) = tableExpect data t := by
    refine map_self _ _ ?_
    intro row hrow
    refine map_self _ _ ?_
    intro cell hc
    rw [hcell row hrow cell hc]
  have comp2 : ((tableExpect data t).map
      (fun row => (row.map fun cell => (replaceInCell data cell).2).sum)).sum = 0 := by
    refine List.sum_eq_zero ?_
    intro x hx
    rcases List.mem_map.mp hx with ⟨row, hrow, rfl⟩
    refine List.sum_eq_zero ?_
    intro y hy
    rcases List.mem_map.mp hy with ⟨cell, hc, rfl⟩
    rw [hcell row hrow cell hc]
  rw [replaceInTable, comp1, comp2]

theorem shape_second (data : Data) (hd : PlainVals data) (s : SegShape)
    (hgs : GoodShape s) :
    shapeRepl data (shapeExpect data s) = (shapeExpect data s, 0) := by
  obtain ⟨htf, htbl⟩ := hgs
  cases s with
  | mk stf stbl =>
    cases stf with
    | none =>
      cases stbl with
      | none => rfl
      | some t =>
        show shapeRepl data ⟨none, some (tableExpect data t)⟩ = _
        simp only [shapeRepl, table_second data hd t htbl]
        rfl
    | some sps =>
      cases stbl with
      | none =>
        show shapeRepl data ⟨some (frameExpect data sps), none⟩ = _
        simp only [shapeRepl, frame_second data hd sps htf]
        rfl
      | some t =>
        show shapeRepl data ⟨some (frameExpect data sps), some (tableExpect data t)⟩ = _
        simp only [shapeRepl, frame_second data hd sps htf, table_second data hd t htbl]
        rfl

/-- A second `replace_placeholders` pass on the substituted document changes
nothing and counts nothing. -/
theorem docRepl_second (data : Data) (hd : PlainVals data) (sd : SegDoc)
    (h : GoodSDoc sd) :
    docRepl data (docExpect data sd) = (docExpect data sd, 0) := by
  have hsh : ∀ sl ∈ docExpect data sd, ∀ sh ∈ sl, shapeRepl data sh = (sh, 0) := by
    intro sl hsl sh hsh
    rcases List.mem_map.mp hsl with ⟨sl0, hsl0, rfl⟩
    rcases List.mem_map.mp hsh with ⟨s0, hs0, rfl⟩
    exact shape_second data hd s0 (h sl0 hsl0 s0 hs0)
  have comp1 : (docExpect data sd).map
      (fun sl => sl.map fun sh => (shapeRepl data sh).1) = docExpect data sd := by
    refine map_self _ _ ?_
    intro sl hsl
    refine map_self _ _ ?_
    intro sh hs
    rw [hsh sl hsl sh hs]
  have comp2 : ((docExpect data sd).map
      (fun sl => (sl.map fun sh => (shapeRepl data sh).2).sum)).sum = 0 := by
    refine List.sum_eq_zero ?_
    intro x hx
    rcases List.mem_map.mp hx with ⟨sl, hsl, rfl⟩
    refine List.sum_eq_zero ?_
    intro y hy
    rcases List.mem_map.mp hy with ⟨sh, hs, rfl⟩
    rw [hsh sl hsl sh hs]
  rw [docRepl, comp1, comp2]

theorem tableSkel_invariant (data : Data) (t : Table) :
    (replaceInTable data t).1.map (fun row => row.map List.length) =
      t.map fun row => row.map List.length := by
  rw [replaceInTable]
  show (t.map fun row => row.map fun cell => (replaceInCell data cell).1).map
      (fun row => row.map List.length) = _
  rw [List.map_map]
  refine map_congr_mem _ _ t (fun row _ => ?_)
  show ((row.map fun cell => (replaceInCell data cell).1).map List.length) =
    row.map List.length
  rw [List.map_map]
  refine map_congr_mem _ _ row (fun cell _ => ?_)
  show ((replaceInCell data cell).1).length = cell.length
  rw [replaceInCell]
  exact List.length_map _ _

theorem shapeRepl_tf_isSome (data : Data) (sh : Shape) :
    ((shapeRepl data sh).1).text_frame.isSome = sh.text_frame.isSome := by
  cases sh with
  | mk tf tb => cases tf <;> cases tb <;> rfl

theorem shapeRepl_table (data : Data) (sh : Shape) :
    ((shapeRepl data sh).1).table = sh.table.map fun t => (replaceInTable data t).1 := by
  cases sh with
  | mk tf tb => cases tf <;> cases tb <;> rfl

theorem shapeSkel_invariant (data : Data) (sh : Shape) :
    shapeSkel (shapeRepl data sh).1 = shapeSkel sh := by
  rw [shapeSkel, shapeSkel, shapeRepl_tf_isSome, shapeRepl_table]
  cases htb : sh.table with
  | none => rfl
  | some t =>
    show (_, some ((replaceInTable data t).1.map fun row => row.map List.length)) =
      (_, some (t.map fun row => row.map List.length))
    rw [tableSkel_invariant]

/-- `replace_placeholders` never changes slide count, shape count or order,
shape capability types, or table dimensions, for any document and map. -/
theorem docSkel_invariant (data : Data) (d : Document) :
    docSkel (docRepl data d).1 = docSkel d := by
  rw [docRepl, docSkel, docSkel, List.map_map]
  refine map_congr_mem _ _ d (fun sl _ => ?_)
  show (sl.map fun sh => (shapeRepl data sh).1).map shapeSkel = sl.map shapeSkel
  rw [List.map_map]
  refine map_congr_mem _ _ sl (fun sh _ => ?_)
  exact shapeSkel_invariant data sh

/-! ### Sorting and the placeholder-set collection -/

theorem strLe_total : ∀ a b : Str, strLe a b = true ∨ strLe b a = true := by
  intro a
  induction a with
  | nil => intro b; left; rfl
  | cons x xs ih =>
    intro b
    cases b with
    | nil => right; rfl
    | cons y ys =>
      rcases lt_trichotomy x y with h | h | h
      · left
        rw [strLe, if_pos h]
      · subst h
        rcases ih ys with h2 | h2
        · left
          rw [strLe, if_neg (lt_irrefl x), if_neg (lt_irrefl x)]
          exact h2
        · right
          rw [strLe, if_neg (lt_irrefl x), if_neg (lt_irrefl x)]
          exact h2
      · right
        rw [strLe, if_pos h]

theorem strLe_trans : ∀ a b c : Str, strLe a b = true → strLe b c = true →
    strLe a c = true := by
  intro a
  induction a with
  | nil => intro b c _ _; rfl
  | cons x xs ih =>
    intro b c h1 h2
    cases b with
    | nil => rw [strLe] at h1; simp at h1
    | cons y ys =>
      cases c with
      | nil => rw [strLe] at h2; simp at h2
      | cons z zs =>
        rcases lt_trichotomy x y with hxy | hxy | hxy
        · rcases lt_trichotomy y z with hyz | hyz | hyz
          · rw [strLe, if_pos (lt_trans hxy hyz)]
          · subst hyz
            rw [strLe, if_pos hxy]
          · rw [strLe, if_neg (asymm hyz), if_pos hyz] at h2
            simp at h2
        · subst hxy
          rcases lt_trichotomy x z with hxz | hxz | hxz
          · rw [strLe, if_pos hxz]
          · subst hxz
            rw [strLe, if_neg (lt_irrefl x), if_neg (lt_irrefl x)] at h1 h2 ⊢
            exact ih ys zs h1 h2
          · rw [strLe, if_neg (asymm hxz), if_pos hxz] at h2
            simp at h2
        · rw [strLe, if_neg (asymm hxy), if_pos hxy] at h1
          simp at h1

theorem mem_insertFold : ∀ (l acc : List Str) (n : Str),
    (n ∈ l.foldl (fun a m => if m ∈ a then a else a ++ [m]) acc) ↔ n ∈ acc ∨ n ∈ l := by
  intro l
  induction l with
  | nil => intro acc n; simp
  | cons m rest ih =>
    intro acc n
    rw [List.foldl_cons]
    by_cases hm : m ∈ acc
    · rw [if_pos hm, ih]
      constructor
      · rintro (h | h)
        · exact Or.inl h
        · exact Or.inr (List.mem_cons_of_mem m h)
      · rintro (h | h)
        · exact Or.inl h
        · rcases List.mem_cons.mp h with rfl | h2
          · exact Or.inl hm
          · exact Or.inr h2
    · rw [if_neg hm, ih]
      constructor
      · rintro (h | h)
        · rcases List.mem_append.mp h with h2 | h2
          · exact Or.inl h2
          · rcases List.mem_singleton.mp h2 with rfl
            exact Or.inr (List.mem_cons_self _ _)
        · exact Or.inr (List.mem_cons_of_mem m h)
      · rintro (h | h)
        · exact Or.inl (List.mem_append.mpr (Or.inl h))
        · rcases List.mem_cons.mp h with rfl | h2
          · exact Or.inl (List.mem_append.mpr (Or.inr (List.mem_singleton.mpr rfl)))
          · exact Or.inr h2

theorem foldl_preserve {α β : Type} (P : β → Prop) (f : β → α → β)
    (hstep : ∀ b a, P b → P (f b a)) : ∀ (l : List α) (b : β), P b → P (l.foldl f b) := by
  intro l
  induction l with
  | nil => intro b h; exact h
  | cons a rest ih =>
    intro b h
    rw [List.foldl_cons]
    exact ih (f b a) (hstep b a h)

theorem nodup_insertStep (acc : List Str) (m : Str) (h : acc.Nodup) :
    (if m ∈ acc then acc else acc ++ [m]).Nodup := by
  by_cases hm : m ∈ acc
  · rw [if_pos hm]; exact h
  · rw [if_neg hm]
    rw [List.nodup_append]
    exact ⟨h, List.nodup_singleton m, fun x hx hxm => by
      rcases List.mem_singleton.mp hxm with rfl
      exact hm hx⟩

theorem nodup_extract (t : Str) (acc : List Str) (h : acc.Nodup) :
    (extractPlaceholders t acc).Nodup :=
  foldl_preserve List.Nodup _ (fun b a hb => nodup_insertStep b a hb) (findall t) acc h

theorem mem_extract (t : Str) (acc : List Str) (n : Str) :
    n ∈ extractPlaceholders t acc ↔ n ∈ acc ∨ n ∈ findall t :=
  mem_insertFold (findall t) acc n

theorem mem_cellsFold : ∀ (row : List Frame) (acc : List Str) (n : Str),
    (n ∈ row.foldl (fun a2 c => extractPlaceholders (cellText c) a2) acc) ↔
      n ∈ acc ∨ n ∈ (row.map fun cell => findall (cellText cell)).flatten := by
  intro row
  induction row with
  | nil => intro acc n; simp
  | cons c rest ih =>
    intro acc n
    rw [List.foldl_cons, ih, mem_extract]
    simp [or_assoc]

theorem mem_rowsFold : ∀ (t : Table) (acc : List Str) (n : Str),
    (n ∈ t.foldl (fun a row => row.foldl (fun a2 c => extractPlaceholders (cellText c) a2) a) acc) ↔
      n ∈ acc ∨ n ∈ (t.map fun row => (row.map fun cell => findall (cellText cell)).flatten).flatten := by
  intro t
  induction t with
  | nil => intro acc n; simp
  | cons row rest ih =>
    intro acc n
    rw [List.foldl_cons, ih, mem_cellsFold]
    simp [or_assoc]

theorem mem_shapeExtract : ∀ (sh : Shape) (acc : List Str) (n : Str),
    (n ∈ shapeExtract acc sh) ↔ n ∈ acc ∨ n ∈ shapeNames sh := by
  intro sh acc n
  cases sh with
  | mk tf tb =>
    cases tf with
    | none =>
      cases tb with
      | none => simp [shapeExtract, shapeNames]
      | some t =>
        show (n ∈ t.foldl _ acc) ↔ _
        rw [mem_rowsFold]
        simp [shapeNames]
    | some tfr =>
      cases tb with
      | none =>
        show (n ∈ extractPlaceholders (frameText tfr) acc) ↔ _
        rw [mem_extract]
        simp [shapeNames]
      | some t =>
        show (n ∈ t.foldl _ (extractPlaceholders (frameText tfr) acc)) ↔ _
        rw [mem_rowsFold, mem_extract]
        simp [shapeNames, or_assoc]

theorem mem_shapesFold : ∀ (sl : Slide) (acc : List Str) (n : Str),
    (n ∈ sl.foldl shapeExtract acc) ↔ n ∈ acc ∨ n ∈ (sl.map shapeNames).flatten := by
  intro sl
  induction sl with
  | nil => intro acc n; simp
  | cons sh rest ih =>
    intro acc n
    rw [List.foldl_cons, ih, mem_shapeExtract]
    simp [or_assoc]

theorem mem_collectDoc : ∀ (d : Document) (n : Str),
    (n ∈ collectDoc d) ↔ n ∈ docNamesList d := by
  intro d n
  rw [collectDoc, docNamesList]
  have : ∀ (sls : List Slide) (acc : List Str),
      (n ∈ sls.foldl (fun acc sl => sl.foldl shapeExtract acc) acc) ↔
        n ∈ acc ∨ n ∈ (sls.map fun sl => (sl.map shapeNames).flatten).flatten := by
    intro sls
    induction sls with
    | nil => intro acc; simp
    | cons sl rest ih =>
      intro acc
      rw [List.foldl_cons, ih, mem_shapesFold]
      simp [or_assoc]
  rw [this d []]
  simp

theorem nodup_shapeExtract (sh : Shape) (acc : List Str) (h : acc.Nodup) :
    (shapeExtract acc sh).Nodup := by
  cases sh with
  | mk tf tb =>
    have hacc1 : (match tf with
        | some tfr => extractPlaceholders (frameText tfr) acc
        | none => acc).Nodup := by
      cases tf with
      | none => exact h
      | some tfr => exact nodup_extract _ _ h
    cases tb with
    | none =>
      cases tf with
      | none => exact h
      | some tfr => exact nodup_extract _ _ h
    | some t =>
      cases tf with
      | none =>
        show (t.foldl _ acc).Nodup
        refine foldl_preserve List.Nodup _ ?_ t acc h
        intro b row hb
        exact foldl_preserve List.Nodup _ (fun b2 c hb2 => nodup_extract _ _ hb2) row b hb
      | some tfr =>
        show (t.foldl _ (extractPlaceholders (frameText tfr) acc)).Nodup
        refine foldl_preserve List.Nodup _ ?_ t _ (nodup_extract _ _ h)
        intro b row hb
        exact foldl_preserve List.Nodup _ (fun b2 c hb2 => nodup_extract _ _ hb2) row b hb

theorem nodup_collectDoc (d : Document) : (collectDoc d).Nodup := by
  rw [collectDoc]
  refine foldl_preserve List.Nodup _ ?_ d [] List.nodup_nil
  intro b sl hb
  exact foldl_preserve List.Nodup _ (fun b2 sh hb2 => nodup_shapeExtract sh b2 hb2) sl b hb

/-! ### Remaining helpers for the claim theorems -/

theorem scan_lits : ∀ (pre s : Str), (∀ c ∈ pre, c ≠ '{') →
    scan (pre ++ s) = pre.map Seg.lit ++ scan s := by
  intro pre
  induction pre with
  | nil => intro s _; rfl
  | cons c rest ih =>
    intro s h
    show scan (c :: (rest ++ s)) = _
    rw [scan_cons_ne _ (h c (List.mem_cons_self _ _)),
      ih s (fun x hx => h x (List.mem_cons_of_mem c hx))]
    rfl

theorem scan_all_lits (xs : Str) (h : ∀ c ∈ xs, c ≠ '{') : scan xs = xs.map Seg.lit := by
  have h2 := scan_lits xs [] h
  rw [List.append_nil] at h2
  rw [h2, scan_nil, List.append_nil]

/-- `replace_placeholders` on an engine with a loaded document: the body never
raises, so the wrapper returns the traversal result. -/
theorem replace_loaded (data : Data) (d : Document) (tp : Option String) :
    replace_placeholders ⟨some d, tp⟩ data =
      (⟨some (docRepl data d).1, tp⟩, (docRepl data d).2) := rfl

/-- After one pass over a well-formed frame, the tokens left in the frame text
are exactly the originally unmatched ones, byte for byte. -/
theorem frame_unmatched_preserved (data : Data) (hd : PlainVals data) (sps : SegFrame)
    (h : GoodFrame sps) :
    findall (frameText (replaceInTextFrame data (sps.map renderSegs)).1) =
      (findall (frameText (sps.map renderSegs))).filter fun n => (lookupD data n).isNone := by
  have hgood : ∀ s ∈ interSegNl sps, GoodSeg s := good_inter sps h
  have htext : frameText (sps.map renderSegs) = renderSegs (interSegNl sps) := by
    rw [frameText, render_inter]
  rw [frame_spec data hd sps h]
  show findall (frameText (frameExpect data sps)) = _
  by_cases hm : matchedCount data (phNames (interSegNl sps)) = 0
  · rw [frameExpect, if_pos hm, htext, findall_render _ hgood]
    symm
    rw [List.filter_eq_self]
    intro n hn
    rw [(matchedCount_eq_zero.mp hm) n hn]
    rfl
  · rw [frameExpect, if_neg hm]
    have hgood2 := multiSubst_good hd _ hgood
    show findall (frameText (splitNl (renderSegs (multiSubst data (interSegNl sps))))) = _
    rw [frameText, interNl_splitNl, findall_render _ hgood2, phNames_multiSubst,
      htext, findall_render _ hgood]

/-- After the per-cell loop of `_replace_in_table` on a well-formed cell, the
tokens of each paragraph are exactly the originally unmatched ones, byte for
byte. -/
theorem cell_unmatched_preserved (data : Data) (hd : PlainVals data) (cs : SegFrame)
    (h : GoodFrame cs) :
    (replaceInCell data (cs.map renderSegs)).1.map findall =
      (cs.map renderSegs).map fun p => (findall p).filter fun n => (lookupD data n).isNone := by
  rw [cell_spec data hd cs h]
  show (cellExpect data cs).map findall = _
  rw [cellExpect, List.map_map, List.map_map]
  refine map_congr_mem _ _ cs ?_
  intro ps hps
  show findall (renderSegs (multiSubst data ps)) =
    (findall (renderSegs ps)).filter fun n => (lookupD data n).isNone
  rw [findall_render _ (multiSubst_good hd ps (h ps hps)), phNames_multiSubst,
    findall_render _ (h ps hps)]

/-- A well-formed cell containing no matched token is left entirely unchanged,
with count 0, by the per-cell loop of `_replace_in_table`. -/
theorem cell_nomatch (data : Data) (hd : PlainVals data) (cs : SegFrame)
    (h : GoodFrame cs) (hm : cellCount data cs = 0) :
    replaceInCell data (cs.map renderSegs) = (cs.map renderSegs, 0) := by
  have hz : ∀ ps ∈ cs, matchedCount data (phNames ps) = 0 := by
    intro ps hps
    rw [cellCount] at hm
    exact (List.sum_eq_zero_iff.mp hm) (matchedCount data (phNames ps))
      (List.mem_map_of_mem _ hps)
  rw [cell_spec data hd cs h, hm]
  have he : cellExpect data cs = cs.map renderSegs := by
    rw [cellExpect]
    refine map_congr_mem _ _ cs ?_
    intro ps hps
    rw [multiSubst_id ps (matchedCount_eq_zero.mp (hz ps hps))]
  rw [he]

/-! ### The claims -/

/-- C1, counterexample.  The claim states that `replace_placeholders` replaces
each occurrence of a token whose name is a key with the stringified map value
and returns the per-occurrence count.  On the document whose only text is the
single token of name `a` with the map sending `a` to the text of a `b` token
and `b` to `X`, the claim requires the final text to be the rendering of the
`b` token (the stringified value of `a`) and the count to be 1 (one occurrence
replaced); the code instead cascades through its second, per-paragraph pass,
producing the text `X` and the count 2. -/
theorem c1_counterexample :
    replace_placeholders ⟨some [[⟨some [['{','{','a','}','}']], none⟩]], none⟩
        [(['a'], ['{','{','b','}','}']), (['b'], ['X'])] =
      (⟨some [[⟨some [['X']], none⟩]], none⟩, 2) ∧
    ¬(replace_placeholders ⟨some [[⟨some [['{','{','a','}','}']], none⟩]], none⟩
        [(['a'], ['{','{','b','}','}']), (['b'], ['X'])] =
      (⟨some [[⟨some [['{','{','b','}','}']], none⟩]], none⟩, 1)) :=
  ⟨by decide, by decide⟩

/-- C1, amended.  Provided every token name in the loaded document contains no
brace and no newline character, no literal text contains an opening brace, and
every stringified map value contains no opening brace (no placeholder-like
text), `replace_placeholders` replaces each token occurrence whose name is a
key of the map with the stringified value (simultaneously, via `docExpect`)
and returns the count of individual occurrences replaced, per occurrence and
not per distinct name (`docCount`); in particular, a text frame containing the
token `a`, the literal text ` and `, and the token `a` again, under the map
sending `a` to `X`, becomes `X and X` with returned count 2. -/
theorem c1_amended :
    (∀ (sd : SegDoc) (data : Data) (tp : Option String), GoodSDoc sd → PlainVals data →
      replace_placeholders ⟨some (renderSDoc sd), tp⟩ data =
        (⟨some (docExpect data sd), tp⟩, docCount data sd)) ∧
    replace_placeholders
        ⟨some [[⟨some [['{','{','a','}','}',' ','a','n','d',' ','{','{','a','}','}']], none⟩]], none⟩
        [(['a'], ['X'])] =
      (⟨some [[⟨some [['X',' ','a','n','d',' ','X']], none⟩]], none⟩, 2) := by
  constructor
  · intro sd data tp hg hp
    rw [replace_loaded, docRepl_spec data hp sd hg]
  · decide

/-- C1, witness for the amended theorem: the scenario-B document given at
segment level satisfies the hypotheses, and the theorem instantiates to it. -/
theorem c1_amended_witness :
    GoodSDoc [[⟨some [[Seg.ph ['a'], Seg.lit ' ', Seg.lit 'a', Seg.lit 'n', Seg.lit 'd',
        Seg.lit ' ', Seg.ph ['a']]], none⟩]] ∧
    PlainVals [(['a'], ['X'])] ∧
    replace_placeholders
        ⟨some (renderSDoc [[⟨some [[Seg.ph ['a'], Seg.lit ' ', Seg.lit 'a', Seg.lit 'n',
          Seg.lit 'd', Seg.lit ' ', Seg.ph ['a']]], none⟩]]), none⟩ [(['a'], ['X'])] =
      (⟨some (docExpect [(['a'], ['X'])] [[⟨some [[Seg.ph ['a'], Seg.lit ' ', Seg.lit 'a',
          Seg.lit 'n', Seg.lit 'd', Seg.lit ' ', Seg.ph ['a']]], none⟩]]), none⟩,
       docCount [(['a'], ['X'])] [[⟨some [[Seg.ph ['a'], Seg.lit ' ', Seg.lit 'a',
          Seg.lit 'n', Seg.lit 'd', Seg.lit ' ', Seg.ph ['a']]], none⟩]]) :=
  ⟨by decide, by decide, c1_amended.1 _ _ none (by decide) (by decide)⟩

/-- C2, counterexample.  The claim states that after `replace_placeholders`
every occurrence of a token whose name is not a key is byte-for-byte
unchanged.  In the document whose only text renders the token `a` followed by
the token named `x{{a` (a name containing braces, which the permissive pattern
accepts), replacing `a` by `X` also rewrites the inside of the second token:
the unmatched token named `x{{a`, present in the original token list, is
destroyed rather than preserved. -/
theorem c2_counterexample :
    replace_placeholders
        ⟨some [[⟨some [['{','{','a','}','}','{','{','x','{','{','a','}','}','y','}','}']], none⟩]], none⟩
        [(['a'], ['X'])] =
      (⟨some [[⟨some [['X','{','{','x','X','y','}','}']], none⟩]], none⟩, 1) ∧
    (['x','{','{','a'] ∈ findall ['{','{','a','}','}','{','{','x','{','{','a','}','}','y','}','}']) ∧
    lookupD [(['a'], ['X'])] ['x','{','{','a'] = none ∧
    ¬(['x','{','{','a'] ∈ findall ['X','{','{','x','X','y','}','}']) :=
  ⟨by decide, by decide, by decide, by decide⟩

/-- C2, amended.  For every document and map, `replace_placeholders` preserves
the structural skeleton (slide count, shape count and order, capability types,
table dimensions).  Provided token names contain no brace and no newline, no
literal text contains an opening brace, and stringified values contain no
opening brace: the tokens remaining in a text frame after one pass are exactly
the originally unmatched ones, byte for byte, and the same holds paragraph by
paragraph for every table cell; a frame containing no matched token and a cell
containing no matched token are each left entirely unchanged with count 0; in
particular a document whose only text is the token `missing` is unchanged
under the empty map with returned count 0. -/
theorem c2_amended :
    (∀ (data : Data) (d : Document), docSkel (docRepl data d).1 = docSkel d) ∧
    (∀ (data : Data) (sps : SegFrame), PlainVals data → GoodFrame sps →
      findall (frameText (replaceInTextFrame data (sps.map renderSegs)).1) =
        (findall (frameText (sps.map renderSegs))).filter fun n => (lookupD data n).isNone) ∧
    (∀ (data : Data) (sps : SegFrame), PlainVals data → GoodFrame sps →
      matchedCount data (phNames (interSegNl sps)) = 0 →
      replaceInTextFrame data (sps.map renderSegs) = (sps.map renderSegs, 0)) ∧
    (∀ (data : Data) (cs : SegFrame), PlainVals data → GoodFrame cs →
      (replaceInCell data (cs.map renderSegs)).1.map findall =
        (cs.map renderSegs).map fun p => (findall p).filter fun n => (lookupD data n).isNone) ∧
    (∀ (data : Data) (cs : SegFrame), PlainVals data → GoodFrame cs →
      cellCount data cs = 0 →
      replaceInCell data (cs.map renderSegs) = (cs.map renderSegs, 0)) ∧
    replace_placeholders
        ⟨some [[⟨some [['{','{','m','i','s','s','i','n','g','}','}']], none⟩]], none⟩ [] =
      (⟨some [[⟨some [['{','{','m','i','s','s','i','n','g','}','}']], none⟩]], none⟩, 0) := by
  refine ⟨fun data d => docSkel_invariant data d,
    fun data sps hp hg => frame_unmatched_preserved data hp sps hg,
    fun data sps hp hg hm => ?_,
    fun data cs hp hg => cell_unmatched_preserved data hp cs hg,
    fun data cs hp hg hm => cell_nomatch data hp cs hg hm,
    by decide⟩
  rw [frame_spec data hp sps hg, hm, frameExpect, if_pos hm]

/-- C2, witness for the amended theorem at concrete inputs: skeleton
preservation on a one-shape document, token preservation and the
unchanged-on-no-match property both for a frame and for a table cell, each
rendering the token `a` followed by the literal `!` or a single unmatched
token `m`. -/
theorem c2_amended_witness :
    docSkel (docRepl [(['a'], ['X'])] [[⟨some [['t']], none⟩]]).1 =
      docSkel [[⟨some [['t']], none⟩]] ∧
    (PlainVals [(['a'], ['X'])] ∧ GoodFrame [[Seg.ph ['a'], Seg.lit '!']] ∧
      findall (frameText (replaceInTextFrame [(['a'], ['X'])]
          ([[Seg.ph ['a'], Seg.lit '!']].map renderSegs)).1) =
        (findall (frameText ([[Seg.ph ['a'], Seg.lit '!']].map renderSegs))).filter
          fun n => (lookupD [(['a'], ['X'])] n).isNone) ∧
    replaceInTextFrame [] ([[Seg.ph ['m']]].map renderSegs) =
      ([[Seg.ph ['m']]].map renderSegs, 0) ∧
    (replaceInCell [(['a'], ['X'])] ([[Seg.ph ['a'], Seg.lit '!']].map renderSegs)).1.map findall =
      ([[Seg.ph ['a'], Seg.lit '!']].map renderSegs).map
        (fun p => (findall p).filter fun n => (lookupD [(['a'], ['X'])] n).isNone) ∧
    replaceInCell [] ([[Seg.ph ['m']]].map renderSegs) =
      ([[Seg.ph ['m']]].map renderSegs, 0) :=
  ⟨c2_amended.1 [(['a'], ['X'])] [[⟨some [['t']], none⟩]],
   ⟨by decide, by decide,
    c2_amended.2.1 [(['a'], ['X'])] [[Seg.ph ['a'], Seg.lit '!']] (by decide) (by decide)⟩,
   c2_amended.2.2.1 [] [[Seg.ph ['m']]] (by decide) (by decide) (by decide),
   c2_amended.2.2.2.1 [(['a'], ['X'])] [[Seg.ph ['a'], Seg.lit '!']] (by decide) (by decide),
   c2_amended.2.2.2.2.1 [] [[Seg.ph ['m']]] (by decide) (by decide) (by decide)⟩

/-- C3, counterexample.  The claim states the recognized syntax is exactly an
opening brace pair, one or more characters that are not a closing brace, and a
closing brace pair.  The pattern actually accepts a zero-length name (the
four-character text of an empty token yields the empty name), accepts names
containing a closing brace (the first closing pair ends the match, so the text
rendering `a`, one closing brace, `b` inside a token yields the name with an
embedded closing brace), and, against the claimed universal, a name with an
embedded newline is never matched, so extraction from its surrounded text
yields nothing rather than the singleton of that name. -/
theorem c3_counterexample :
    findall ['{','{','}','}'] = [[]] ∧
    findall ['{','{','a','}','b','}','}'] = [['a','}','b']] ∧
    findall (['p','r','e','f','i','x',' ','{','{'] ++ ['a','\n','b'] ++
      ['}','}',' ','s','u','f','f','i','x']) = [] :=
  ⟨by decide, by decide, by decide⟩

/-- C3, amended.  The matcher recognizes an opening brace pair followed by the
shortest possibly-empty run of non-newline characters up to the first closing
brace pair; lazy matching makes adjacent tokens `a` and `b` yield the two
names in order, and for every token name containing no closing brace and no
newline, extraction from the name surrounded by `prefix ` and ` suffix` yields
exactly that one name. -/
theorem c3_amended :
    findall ['{','{','a','}','}','{','{','b','}','}'] = [['a'], ['b']] ∧
    ∀ n : Str, (∀ c ∈ n, c ≠ '}' ∧ c ≠ '\n') →
      findall (['p','r','e','f','i','x',' ','{','{'] ++ n ++
        ['}','}',' ','s','u','f','f','i','x']) = [n] := by
  constructor
  · decide
  · intro n hn
    rw [List.append_assoc]
    show findall (['p','r','e','f','i','x',' '] ++
      ('{' :: '{' :: (n ++ '}' :: '}' :: [' ','s','u','f','f','i','x']))) = [n]
    rw [findall, scan_lits ['p','r','e','f','i','x',' '] _ (by decide),
      scan_tok (takeName_clean [' ','s','u','f','f','i','x'] n hn),
      scan_all_lits [' ','s','u','f','f','i','x'] (by decide),
      phNames_append, phNames_lits]
    show phNames (Seg.ph n :: List.map Seg.lit [' ','s','u','f','f','i','x']) = [n]
    rw [phNames, phNames_lits]

/-- C3, witness for the amended universal at the concrete name `name`. -/
theorem c3_amended_witness :
    findall (['p','r','e','f','i','x',' ','{','{'] ++ ['n','a','m','e'] ++
      ['}','}',' ','s','u','f','f','i','x']) = [['n','a','m','e']] :=
  c3_amended.2 ['n','a','m','e'] (by decide)

/-- C4.  For every loaded document, `get_placeholders_list` returns the
lexicographically sorted (by code point, the Python `sorted` order on strings)
sequence of distinct placeholder names found across every shape's text
container and every table cell's text (`docNamesList` mirrors exactly the
traversal of the source), and the operation is a pure function of the engine
state, so the document is not mutated; in particular a document with a token
`x` in a text shape and a token `y` in a table cell yields the two names in
order. -/
theorem c4_get_placeholders_list :
    (∀ (d : Document) (tp : Option String),
      List.Sorted strLeP (get_placeholders_list ⟨some d, tp⟩) ∧
      (get_placeholders_list ⟨some d, tp⟩).Nodup ∧
      ∀ n, (n ∈ get_placeholders_list ⟨some d, tp⟩) ↔ n ∈ docNamesList d) ∧
    get_placeholders_list ⟨some [[⟨some [['{','{','x','}','}']], none⟩,
      ⟨none, some [[[['{','{','y','}','}']]]]⟩]], none⟩ = [['x'], ['y']] := by
  constructor
  · intro d tp
    have hdef : get_placeholders_list ⟨some d, tp⟩ =
        List.insertionSort strLeP (collectDoc d) := rfl
    refine ⟨?_, ?_, ?_⟩
    · rw [hdef]
      exact @List.sorted_insertionSort Str strLeP _ ⟨strLe_total⟩ ⟨strLe_trans⟩ (collectDoc d)
    · rw [hdef]
      exact ((List.perm_insertionSort strLeP (collectDoc d)).nodup_iff).mpr (nodup_collectDoc d)
    · intro n
      rw [hdef, (List.perm_insertionSort strLeP (collectDoc d)).mem_iff, mem_collectDoc]
  · decide

/-- C5, counterexample.  The claim states that when the stringified map values
contain no placeholder-like text, a second `replace_placeholders` pass with
the same map returns occurrence count 0.  With the plain values `Y`, `W`, `V`
and a document whose token names contain braces, the first pass manufactures a
new matched token too late for its own per-paragraph pass to consume, and the
second pass replaces it, returning count 1. -/
theorem c5_counterexample :
    (∀ p ∈ ([(['a'], ['Y']), (['p','Y','q'], ['W']), (['s','W','t'], ['V'])] : Data),
      ∀ c ∈ p.2, c ≠ '{' ∧ c ≠ '}') ∧
    (replace_placeholders
      ((replace_placeholders
        ⟨some [[⟨some [['{','{','a','}','}',' ','{','{','p','{','{','a','}','}','q','}','}',
          ' ','{','{','s','{','{','p','{','{','a','}','}','q','}','}','t','}','}']], none⟩]], none⟩
        [(['a'], ['Y']), (['p','Y','q'], ['W']), (['s','W','t'], ['V'])]).1)
      [(['a'], ['Y']), (['p','Y','q'], ['W']), (['s','W','t'], ['V'])]).2 = 1 ∧
    (1 : Nat) ≠ 0 :=
  ⟨by decide, by decide, by decide⟩

/-- C5, amended.  Provided every token name in the loaded document contains no
brace and no newline, no literal text contains an opening brace, and every
stringified value contains no opening brace, running `replace_placeholders` a
second time with the same map returns occurrence count 0: the first pass
exhausts every matched token and plain substituted values never re-match. -/
theorem c5_amended :
    ∀ (sd : SegDoc) (data : Data) (tp : Option String), GoodSDoc sd → PlainVals data →
      (replace_placeholders
        ((replace_placeholders ⟨some (renderSDoc sd), tp⟩ data).1) data).2 = 0 := by
  intro sd data tp hg hp
  rw [replace_loaded, docRepl_spec data hp sd hg]
  show (replace_placeholders ⟨some (docExpect data sd), tp⟩ data).2 = 0
  rw [replace_loaded, docRepl_second data hp sd hg]

/-- C5, witness for the amended theorem: a two-token frame with one matched
and one unmatched name. -/
theorem c5_amended_witness :
    (replace_placeholders
      ((replace_placeholders
        ⟨some (renderSDoc [[⟨some [[Seg.ph ['a'], Seg.lit ' ', Seg.ph ['m']]], none⟩]]), none⟩
        [(['a'], ['X'])]).1) [(['a'], ['X'])]).2 = 0 :=
  c5_amended [[⟨some [[Seg.ph ['a'], Seg.lit ' ', Seg.ph ['m']]], none⟩]]
    [(['a'], ['X'])] none (by decide) (by decide)

/-- C6, counterexample.  The claim states that `replace_placeholders` invoked
with no document loaded fails by signaling the precondition violation to the
caller.  The body does raise it (`replaceInner` returns the error), but the
catch-all handler swallows it and the caller receives the ordinary return
value 0 with the engine unchanged: no failure is signaled. -/
theorem c6_counterexample :
    replaceInner ⟨none, none⟩ [] = Except.error PPTXError.noDocumentLoaded ∧
    replace_placeholders ⟨none, none⟩ [] = (⟨none, none⟩, 0) :=
  ⟨rfl, rfl⟩

/-- C6, amended.  With no document loaded the body of `replace_placeholders`
raises the no-document precondition violation, but the public method catches
every exception and returns the sentinel 0 with the engine unchanged; with a
document loaded the body never fails, and in particular unmatched placeholders
never cause a failure (the traversal always returns normally). -/
theorem c6_amended :
    (∀ (tp : Option String) (data : Data),
      replaceInner ⟨none, tp⟩ data = Except.error PPTXError.noDocumentLoaded ∧
      replace_placeholders ⟨none, tp⟩ data = (⟨none, tp⟩, 0)) ∧
    (∀ (d : Document) (tp : Option String) (data : Data),
      replaceInner ⟨some d, tp⟩ data = Except.ok (docRepl data d)) :=
  ⟨fun _ _ => ⟨rfl, rfl⟩, fun _ _ _ => rfl⟩

/-- C7, counterexample.  The claim states the caller can distinguish success,
a missing file, and a malformed file.  The two failure cases produce exactly
the same caller-visible outcome: the catch-all handler maps both the
file-not-found error and the parse error to the return value `false` with the
engine unchanged, so they are indistinguishable to the caller. -/
theorem c7_counterexample :
    load_template (fun _ => FileState.absent) "template.pptx" ⟨none, none⟩ =
      (⟨none, none⟩, false) ∧
    load_template (fun _ => FileState.invalid) "template.pptx" ⟨none, none⟩ =
      (⟨none, none⟩, false) ∧
    load_template (fun _ => FileState.absent) "template.pptx" ⟨none, none⟩ =
      load_template (fun _ => FileState.invalid) "template.pptx" ⟨none, none⟩ :=
  ⟨rfl, rfl, rfl⟩

/-- C7, amended.  `load_template` returns `true` and installs the document and
path when the file parses; internally a missing path raises the
file-not-found error and a malformed file raises the parse error (the two
are distinct inside the body), but the catch-all handler maps both to the
same caller-visible return `false` with the engine unchanged, so the caller
can distinguish success from failure but not the two failure causes. -/
theorem c7_amended :
    (∀ (fs : FileSys) (p : String) (e : Engine) (d : Document), fs p = FileState.valid d →
      load_template fs p e = (⟨some d, some p⟩, true)) ∧
    (∀ (fs : FileSys) (p : String) (e : Engine), fs p = FileState.absent →
      loadInner fs p = Except.error PPTXError.fileNotFound ∧
      load_template fs p e = (e, false)) ∧
    (∀ (fs : FileSys) (p : String) (e : Engine), fs p = FileState.invalid →
      loadInner fs p = Except.error PPTXError.parseError ∧
      load_template fs p e = (e, false)) := by
  refine ⟨?_, ?_, ?_⟩
  · intro fs p e d h
    rw [load_template, loadInner, h]
  · intro fs p e h
    constructor
    · rw [loadInner, h]
    · rw [load_template, loadInner, h]
  · intro fs p e h
    constructor
    · rw [loadInner, h]
    · rw [load_template, loadInner, h]

/-- C7, witness for the amended theorem on the three concrete filesystem
states. -/
theorem c7_amended_witness :
    load_template (fun _ => FileState.valid [[]]) "t.pptx" ⟨none, none⟩ =
      (⟨some [[]], some "t.pptx"⟩, true) ∧
    load_template (fun _ => FileState.absent) "t.pptx" ⟨none, none⟩ = (⟨none, none⟩, false) ∧
    load_template (fun _ => FileState.invalid) "t.pptx" ⟨none, none⟩ = (⟨none, none⟩, false) :=
  ⟨c7_amended.1 _ _ _ [[]] rfl, (c7_amended.2.1 _ _ _ rfl).2, (c7_amended.2.2 _ _ _ rfl).2⟩

/-- C8.  One `replace_placeholders` call processes each text frame twice — a
whole-frame pass, then a per-paragraph pass over the rewritten text — so
substitution cascades within one call: on a single-paragraph frame holding
only the token `a`, with the map sending `a` to the text of a `b` token and
`b` to `X`, one call produces the text `X` and returns occurrence count 2. -/
theorem c8_cascade :
    replace_placeholders ⟨some [[⟨some [['{','{','a','}','}']], none⟩]], none⟩
        [(['a'], ['{','{','b','}','}']), (['b'], ['X'])] =
      (⟨some [[⟨some [['X']], none⟩]], none⟩, 2) := by
  decide

/-- C9.  A failed `load_template` is atomic: when the path does not exist or
the file does not parse, both raised before any assignment, the engine's
presentation and template path are left exactly as they were (a previously
loaded document stays loaded) and the method returns `false`. -/
theorem c9_load_template_atomic :
    ∀ (fs : FileSys) (p : String) (e : Engine),
      fs p = FileState.absent ∨ fs p = FileState.invalid →
      load_template fs p e = (e, false) := by
  intro fs p e h
  rcases h with h | h <;> rw [load_template, loadInner, h]

/-- C9, witness: a missing path with a document already loaded leaves the
engine untouched and returns `false`. -/
theorem c9_witness :
    load_template (fun _ => FileState.absent) "missing.pptx"
      ⟨some [[⟨some [['o','l','d']], none⟩]], some "old.pptx"⟩ =
      (⟨some [[⟨some [['o','l','d']], none⟩]], some "old.pptx"⟩, false) :=
  c9_load_template_atomic _ _ _ (Or.inl rfl)

/-- C10.  No public operation propagates a failure to the caller: whenever a
body raises (`loadInner`, `replaceInner`, `saveInner`, `gplInner` return an
error), the wrapper returns the sentinel `false`, 0, `false`, or the empty
list respectively; in particular `replace_placeholders` and
`get_placeholders_list` with no presentation loaded return 0 and the empty
list rather than raising, and `save_presentation` with no presentation
returns `false`. -/
theorem c10_no_exception_propagation :
    (∀ (tp : Option String) (data : Data),
      replace_placeholders ⟨none, tp⟩ data = (⟨none, tp⟩, 0)) ∧
    (∀ tp : Option String, get_placeholders_list ⟨none, tp⟩ = []) ∧
    (∀ (tp : Option String) (diskOk : Bool), save_presentation ⟨none, tp⟩ diskOk = false) ∧
    (∀ (e : Engine) (diskOk : Bool) (err : PPTXError),
      saveInner e diskOk = Except.error err → save_presentation e diskOk = false) ∧
    (∀ (fs : FileSys) (p : String) (e : Engine) (err : PPTXError),
      loadInner fs p = Except.error err → load_template fs p e = (e, false)) ∧
    (∀ (e : Engine) (data : Data) (err : PPTXError),
      replaceInner e data = Except.error err → replace_placeholders e data = (e, 0)) ∧
    (∀ (e : Engine) (err : PPTXError),
      gplInner e = Except.error err → get_placeholders_list e = []) := by
  refine ⟨fun _ _ => rfl, fun _ => rfl, fun _ _ => rfl, ?_, ?_, ?_, ?_⟩
  · intro e diskOk err h
    rw [save_presentation, h]
  · intro fs p e err h
    rw [load_template, h]
  · intro e data err h
    rw [replace_placeholders, h]
  · intro e err h
    rw [get_placeholders_list, h]

/-- C10, witness at concrete inputs: each wrapper returns its sentinel when
its body fails. -/
theorem c10_witness :
    save_presentation ⟨none, none⟩ true = false ∧
    load_template (fun _ => FileState.absent) "x.pptx" ⟨none, none⟩ = (⟨none, none⟩, false) ∧
    replace_placeholders ⟨none, none⟩ [] = (⟨none, none⟩, 0) ∧
    get_placeholders_list ⟨none, none⟩ = [] :=
  ⟨c10_no_exception_propagation.2.2.2.1 ⟨none, none⟩ true PPTXError.noDocumentLoaded rfl,
   c10_no_exception_propagation.2.2.2.2.1 _ _ _ PPTXError.fileNotFound rfl,
   c10_no_exception_propagation.2.2.2.2.2.1 ⟨none, none⟩ [] PPTXError.noDocumentLoaded rfl,
   c10_no_exception_propagation.2.2.2.2.2.2 ⟨none, none⟩ PPTXError.noDocumentLoaded rfl⟩

end PPTX
